import Mathlib

/-!
Verification development for `preprocessGPXtracks.py`, the GPX track
preprocessing script.  The core pipeline (`prepare` + `makeouttree`, together
with the helpers `makepointdict` and the per-track emission code) is embedded
shallowly below:

* an lxml element tree is modelled structurally (`Trkseg` is the list of its
  `<trkpt>` children, a `<trkpt>` carries its `lat`/`lon` attributes and the
  optional text of its `<ele>`/`<time>` children);
* Python strings are Lean `String`s; comparison and `str.strip()` are performed
  on the character list `String.data`, matching Python's lexicographic string
  order and whitespace stripping;
* an uncaught Python exception (`AttributeError` from calling `.text` on a
  failed `find`, which aborts the whole run) is modelled by `Option`, the
  failing computation returning `none`;
* the in-place mutation `track.remove(pointlist[0])` performed under `--crop`
  is modelled by explicit state passing: each processed segment is paired with
  its index in the original track list, and the post-run state of the input
  document is reconstructed from the returned (possibly mutated) segments.
-/

namespace GPXPre

/-- Python `s.strip()`: drop leading and trailing whitespace characters. -/
def pyStrip (s : String) : String :=
  ⟨((s.data.dropWhile Char.isWhitespace).reverse.dropWhile Char.isWhitespace).reverse⟩

/-- Lexicographic `<=` on Python strings (comparison of the character lists). -/
def pyLe (a b : String) : Prop := a.data ≤ b.data

/-- Lexicographic `<` on Python strings (comparison of the character lists). -/
def pyLt (a b : String) : Prop := a.data < b.data

instance : DecidableRel pyLe := fun a b => inferInstanceAs (Decidable (a.data ≤ b.data))

instance : DecidableRel pyLt := fun a b => inferInstanceAs (Decidable (a.data < b.data))

/-- A `<trkpt>` element of the input document: its `lat`/`lon` attributes and
the text of its optional `<ele>` and `<time>` children.  `none` models an
absent child (or a child whose text is `None`); calling `.text` on the result
of a failed `find` raises `AttributeError` in the Python code. -/
structure Trkpt where
  lat : String
  lon : String
  ele : Option String
  time : Option String
deriving Repr, DecidableEq

/-- A `<trkseg>` element: its `<trkpt>` children in document order.  In a GPX
document the children of a `<trkseg>` are exactly its `<trkpt>` elements, so
`len(track)` (line 181) and `track.findall('{ns}trkpt')` (line 191) both see
this list. -/
structure Trkseg where
  pts : List Trkpt
deriving Repr, DecidableEq

/-- `track.find('{ns}trkpt/{ns}time')` (lines 210, 299, 305, 312): the first
`<time>` element under a `<trkpt>` child in document order, i.e. the time text
of the first point that has one. -/
def findTrkptTime (t : Trkseg) : Option String :=
  (t.pts.filterMap (fun p => p.time)).head?

/-- The dedup/sort key of a segment (the raw, unstripped `.text` of the first
`trkpt/time` element).  It is only ever used on segments for which
`findTrkptTime` returned `some`; the default is never reached there. -/
def segKey (t : Trkseg) : String := (findTrkptTime t).getD ""

/-- The filtering loop of `prepare` (lines 301-310).  Segments are paired with
their position in the original track list.  `seen` is `firstptlist`, the keys
of the segments retained so far.  The result is the retained segments together
with the `numempty` and `numdupes` counters.  A non-empty segment none of whose
points has a `<time>` child makes `track.find(firstptfind).text` raise
`AttributeError` (line 305), modelled by `none`. -/
def prepareLoop : List (Nat × Trkseg) → List String → Option (List (Nat × Trkseg) × Nat × Nat)
  | [], _ => some ([], 0, 0)
  | (i, t) :: rest, seen =>
    if t.pts = [] then
      (prepareLoop rest seen).map (fun r => (r.1, r.2.1 + 1, r.2.2))
    else
      match findTrkptTime t with
      | none => none
      | some k =>
        if k ∈ seen then
          (prepareLoop rest seen).map (fun r => (r.1, r.2.1, r.2.2 + 1))
        else
          (prepareLoop rest (seen ++ [k])).map (fun r => ((i, t) :: r.1, r.2.1, r.2.2))

/-- The comparison used by `sorted(newtracklist, key=lambda x: x.find(firstptfind).text)`
(line 312). -/
def segLe (a b : Nat × Trkseg) : Prop := pyLe (segKey a.2) (segKey b.2)

instance : DecidableRel segLe := fun a b =>
  inferInstanceAs (Decidable (pyLe (segKey a.2) (segKey b.2)))

instance : IsTotal (Nat × Trkseg) segLe :=
  ⟨fun a b => le_total (segKey a.2).data (segKey b.2).data⟩

instance : IsTrans (Nat × Trkseg) segLe :=
  ⟨fun _ _ _ hab hbc => le_trans hab hbc⟩

/-- `prepare` (lines 287-319): drop empty segments, drop segments whose first
`trkpt/time` text was already seen (first occurrence wins), then sort the
retained segments by that text.  Python's `sorted` is a stable ascending sort,
modelled by `List.insertionSort` with the `<=` comparison on the keys. -/
def prepare (tracklist : List Trkseg) : Option (List (Nat × Trkseg) × Nat × Nat) :=
  (prepareLoop tracklist.enum []).map
    (fun r => (List.insertionSort segLe r.1, r.2.1, r.2.2))

/-- One entry of `pointdict`: the key (stripped time text) and the stored
`(lat, lon, ele)` tuple. -/
structure PEntry where
  time : String
  lat : String
  lon : String
  ele : String
deriving Repr, DecidableEq

/-- Elevation handling in `makepointdict` (lines 147-152): the stripped text of
the `<ele>` child, or the literal `"0"` when the lookup raises
`AttributeError` (tag absent or empty). -/
def elePy (p : Trkpt) : String :=
  match p.ele with
  | none => "0"
  | some e => pyStrip e

/-- The dict entry built for one point (line 154); only used on points whose
`time` is present, so the default of `getD` is never reached. -/
def toEntry (p : Trkpt) : PEntry :=
  ⟨pyStrip (p.time.getD ""), p.lat, p.lon, elePy p⟩

/-- `pointdict[time] = (lat, lon, ele)`: assignment to a Python dict updates
the value in place for an existing key and appends a new key at the end. -/
def dictInsert (d : List PEntry) (e : PEntry) : List PEntry :=
  if d.any (fun x => x.time = e.time) then
    d.map (fun x => if x.time = e.time then e else x)
  else
    d ++ [e]

/-- The loop of `makepointdict` (lines 144-154), folding the points into the
dict.  A point without a `<time>` child makes `trkpoint.find('time').text`
raise an uncaught `AttributeError` (line 153), modelled by `none`. -/
def makepointdictLoop (d : List PEntry) : List Trkpt → Option (List PEntry)
  | [] => some d
  | p :: rest =>
    match p.time with
    | none => none
    | some _ => makepointdictLoop (dictInsert d (toEntry p)) rest

/-- `makepointdict` (lines 140-156). -/
def makepointdict (pointlist : List Trkpt) : Option (List PEntry) :=
  makepointdictLoop [] pointlist

/-- A `<trkpt>` element of the output document (lines 202-208). -/
structure OutPoint where
  lat : String
  lon : String
  ele : String
  time : String
deriving Repr, DecidableEq

/-- Comparison of dict entries by key, used to model `sorted(pointdict.keys())`. -/
def entryLe (a b : PEntry) : Prop := pyLe a.time b.time

instance : DecidableRel entryLe := fun a b =>
  inferInstanceAs (Decidable (pyLe a.time b.time))

instance : IsTotal PEntry entryLe := ⟨fun a b => le_total a.time.data b.time.data⟩

instance : IsTrans PEntry entryLe := ⟨fun _ _ _ hab hbc => le_trans hab hbc⟩

/-- Emission loop `for time in sorted(pointdict.keys())` (lines 201-208): one
new `<trkpt>` per dict key, in ascending key order.  Dict keys are distinct, so
sorting the entries by key is the same as sorting the key list and looking each
key up. -/
def emitPoints (d : List PEntry) : List OutPoint :=
  (List.insertionSort entryLe d).map (fun e => ⟨e.lat, e.lon, e.ele, e.time⟩)

/-- A `<trk>` element of the output document: its `<name>` text and the points
of its single `<trkseg>` child. -/
structure OutTrk where
  name : String
  seg : List OutPoint
deriving Repr, DecidableEq

/-- Processing of one kept track in `makeouttree` (lines 187-211).  Under
`crop` the code removes the first point from the *input* `<trkseg>` element
(`track.remove(pointlist[0])`, line 195, reached only when the length filter
guaranteed at least 3 points) and emits `pointlist[1:-1]`; the track name is
the stripped text of the first `trkpt/time` of the (possibly mutated) input
track (line 210), `AttributeError` if there is none.  Returns the built track
and the post-run state of the input `<trkseg>`. -/
def procTrack (crop : Bool) (t : Trkseg) : Option (OutTrk × Trkseg) :=
  let t' : Trkseg := if crop then ⟨t.pts.tail⟩ else t
  let pointlist' := if crop then t.pts.tail.dropLast else t.pts
  match makepointdict pointlist' with
  | none => none
  | some d =>
    match findTrkptTime t' with
    | none => none
    | some nm => some (⟨pyStrip nm, emitPoints d⟩, t')

/-- The skip condition of line 182:
`not crop and tracklen <= minpoints or crop and tracklen <= (minpoints + 2)`,
where `tracklen = len(track)` is the pre-crop point count. -/
def dropPred (crop : Bool) (minpoints : Nat) (t : Trkseg) : Bool :=
  (!crop && decide (t.pts.length ≤ minpoints)) ||
    (crop && decide (t.pts.length ≤ minpoints + 2))

/-- Result of the `makeouttree` loop: the emitted `<trk>` elements, the kept
input segments (pre-mutation, in emission order, with their original indices),
the post-run state of every processed input segment, and the
`skippedtracksegs` counter. -/
structure MOResult where
  trks : List OutTrk
  kept : List (Nat × Trkseg)
  segsOut : List (Nat × Trkseg)
  skipped : Nat
deriving Repr, DecidableEq

/-- The loop of `makeouttree` (lines 177-211) over the prepared track list. -/
def makeouttreeGo (crop : Bool) (minpoints : Nat) :
    List (Nat × Trkseg) → Option MOResult
  | [] => some ⟨[], [], [], 0⟩
  | (i, t) :: rest =>
    if dropPred crop minpoints t then
      (makeouttreeGo crop minpoints rest).map
        (fun r => ⟨r.trks, r.kept, (i, t) :: r.segsOut, r.skipped + 1⟩)
    else
      match procTrack crop t with
      | none => none
      | some (otrk, t') =>
        (makeouttreeGo crop minpoints rest).map
          (fun r => ⟨otrk :: r.trks, (i, t) :: r.kept, (i, t') :: r.segsOut, r.skipped⟩)

/-- The output document: the root `<gpx>` element carries a creation `<time>`
child (line 174, `datetime.now()`, passed in as an explicit clock value) and
the emitted `<trk>` elements. -/
structure OutTree where
  filetime : String
  trks : List OutTrk
deriving Repr, DecidableEq

/-- `makeouttree` (lines 159-217). -/
def makeouttree (filetime : String) (tracklist : List (Nat × Trkseg))
    (crop : Bool) (minpoints : Nat) : Option (OutTree × MOResult) :=
  (makeouttreeGo crop minpoints tracklist).map (fun r => (⟨filetime, r.trks⟩, r))

/-- Reconstruct the post-run state of the input track list from the (possibly
mutated) processed segments, which carry their original indices.  A segment
never handed to `makeouttree` (dropped by `prepare`) is unchanged. -/
def applyMutations (orig : List Trkseg) (m : List (Nat × Trkseg)) : List Trkseg :=
  orig.enum.map (fun x => ((m.find? (fun y => y.1 == x.1)).map (fun y => y.2)).getD x.2)

/-- Result of one run of the core pipeline. -/
structure RunResult where
  outtree : OutTree
  finalInput : List Trkseg
  retained : List (Nat × Trkseg)
  kept : List (Nat × Trkseg)
  numempty : Nat
  numdupes : Nat
  skipped : Nat
deriving Repr, DecidableEq

/-- The core pipeline as invoked by `main` (lines 329-334): `prepare` followed
by `makeouttree`.  `retained` is the sorted deduplicated segment list produced
by `prepare`, `kept` the segments that survived the length filter, and
`finalInput` the state of the input document's segments after the run. -/
def runPipeline (filetime : String) (tracklist : List Trkseg)
    (crop : Bool) (minpoints : Nat) : Option RunResult :=
  match prepare tracklist with
  | none => none
  | some (nl, numempty, numdupes) =>
    match makeouttree filetime nl crop minpoints with
    | none => none
    | some (outtree, r) =>
      some ⟨outtree, applyMutations tracklist r.segsOut, nl, r.kept,
        numempty, numdupes, r.skipped⟩

/-- Serialization and re-parse of a text child: lxml serializes an element with
empty text the same as one with no text, so an empty string parses back as
`None`. -/
def optText (s : String) : Option String := if s = "" then none else some s

/-- Re-parse one emitted `<trkpt>` (for feeding an output document back into
the pipeline). -/
def reparsePoint (q : OutPoint) : Trkpt :=
  ⟨q.lat, q.lon, optText q.ele, optText q.time⟩

/-- Re-parse of one emitted `<trk>` element: its single `<trkseg>` child. -/
def reparseSeg (tr : OutTrk) : Trkseg :=
  ⟨tr.seg.map reparsePoint⟩

/-- Re-parse of an output document by `gettracks` (lines 271-284): the
`<trkseg>` children of the emitted `<trk>` elements, in order. -/
def reparse (o : OutTree) : List Trkseg :=
  o.trks.map reparseSeg

/-! ### Helper lemmas about the string order -/

theorem strData_inj {a b : String} (h : a.data = b.data) : a = b := by
  cases a; cases b; exact congrArg String.mk (by simpa using h)

theorem pyLe_of_pyLt {a b : String} (h : pyLt a b) : pyLe a b := le_of_lt h

theorem pyLt_ne {a b : String} (h : pyLt a b) : a ≠ b := by
  rintro rfl
  exact lt_irrefl _ h

theorem pyLt_of_pyLe_of_ne {a b : String} (h : pyLe a b) (hne : a ≠ b) : pyLt a b :=
  lt_of_le_of_ne h (fun hd => hne (strData_inj hd))

/-! ### Helper lemmas about `findTrkptTime` -/

theorem findTrkptTime_cons_some {p : Trkpt} {rest : List Trkpt} {u : String}
    (h : p.time = some u) : findTrkptTime ⟨p :: rest⟩ = some u := by
  simp [findTrkptTime, List.filterMap_cons, h]

theorem segKey_cons_some {p : Trkpt} {rest : List Trkpt} {u : String}
    (h : p.time = some u) : segKey ⟨p :: rest⟩ = u := by
  simp [segKey, findTrkptTime_cons_some h]

/-! ### Helper lemmas about the point dict -/

theorem times_dictInsert (d : List PEntry) (e : PEntry) :
    (dictInsert d e).map (fun x => x.time) =
      if d.any (fun x => x.time = e.time) then d.map (fun x => x.time)
      else d.map (fun x => x.time) ++ [e.time] := by
  unfold dictInsert
  split
  · rw [List.map_map]
    refine List.map_congr_left (fun x _ => ?_)
    by_cases hx : x.time = e.time <;> simp [hx]
  · simp

theorem nodup_times_dictInsert {d : List PEntry} (e : PEntry)
    (h : (d.map (fun x => x.time)).Nodup) :
    ((dictInsert d e).map (fun x => x.time)).Nodup := by
  rw [times_dictInsert]
  split
  · exact h
  · next hne =>
    have hne' : ∀ x ∈ d, x.time ≠ e.time := by
      intro x hx hxe
      exact hne (List.any_eq_true.mpr ⟨x, hx, by simpa using hxe⟩)
    rw [List.nodup_append]
    refine ⟨h, List.nodup_singleton _, ?_⟩
    intro a ha hb
    rw [List.mem_singleton] at hb
    subst hb
    rw [List.mem_map] at ha
    obtain ⟨x, hx, hxa⟩ := ha
    exact hne' x hx hxa

theorem mem_dictInsert {x : PEntry} {d : List PEntry} {e : PEntry}
    (h : x ∈ dictInsert d e) : x = e ∨ x ∈ d := by
  unfold dictInsert at h
  split at h
  · rw [List.mem_map] at h
    obtain ⟨y, hy, hxy⟩ := h
    by_cases hyt : y.time = e.time
    · simp [hyt] at hxy
      exact Or.inl hxy.symm
    · simp [hyt] at hxy
      exact Or.inr (hxy ▸ hy)
  · rcases List.mem_append.mp h with h' | h'
    · exact Or.inr h'
    · exact Or.inl (List.mem_singleton.mp h')

theorem dictInsert_of_not_mem {d : List PEntry} {e : PEntry}
    (h : e.time ∉ d.map (fun x => x.time)) : dictInsert d e = d ++ [e] := by
  unfold dictInsert
  rw [if_neg]
  intro hc
  obtain ⟨x, hx, hxe⟩ := List.any_eq_true.mp hc
  exact h (List.mem_map.mpr ⟨x, hx, by simpa using hxe⟩)

theorem find?_update_self (d : List PEntry) (e : PEntry) :
    (d.map (fun x => if x.time = e.time then e else x)).find? (fun x => x.time = e.time) =
      (d.find? (fun x => x.time = e.time)).map (fun _ => e) := by
  induction d with
  | nil => simp
  | cons a d ih =>
    by_cases ha : a.time = e.time
    · simp only [List.map_cons, if_pos ha]
      rw [List.find?_cons_of_pos _ (by simp),
        List.find?_cons_of_pos _ (by simpa using ha)]
      rfl
    · simp only [List.map_cons, if_neg ha]
      rw [List.find?_cons_of_neg _ (by simpa using ha),
        List.find?_cons_of_neg _ (by simpa using ha)]
      exact ih

theorem find?_update_ne {t : String} (d : List PEntry) (e : PEntry) (h : t ≠ e.time) :
    (d.map (fun x => if x.time = e.time then e else x)).find? (fun x => x.time = t) =
      d.find? (fun x => x.time = t) := by
  induction d with
  | nil => simp
  | cons a d ih =>
    by_cases ha : a.time = e.time
    · simp only [List.map_cons, if_pos ha]
      rw [List.find?_cons_of_neg _ (by simpa using Ne.symm h),
        List.find?_cons_of_neg _ (by simp [ha]; exact Ne.symm h)]
      exact ih
    · simp only [List.map_cons, if_neg ha]
      by_cases hat : a.time = t
      · rw [List.find?_cons_of_pos _ (by simpa using hat),
          List.find?_cons_of_pos _ (by simpa using hat)]
      · rw [List.find?_cons_of_neg _ (by simpa using hat),
          List.find?_cons_of_neg _ (by simpa using hat)]
        exact ih

theorem find?_dictInsert_self (d : List PEntry) (e : PEntry) :
    (dictInsert d e).find? (fun x => x.time = e.time) = some e := by
  unfold dictInsert
  split
  · next hany =>
    obtain ⟨x₀, hx₀, hx₀e⟩ := List.any_eq_true.mp hany
    rw [find?_update_self]
    have hsome : (d.find? (fun x => x.time = e.time)).isSome :=
      List.find?_isSome.mpr ⟨x₀, hx₀, hx₀e⟩
    obtain ⟨y, hy⟩ := Option.isSome_iff_exists.mp hsome
    rw [hy]
    rfl
  · next hany =>
    have hd : d.find? (fun x => x.time = e.time) = none := by
      rw [List.find?_eq_none]
      intro x hx hxe
      exact hany (List.any_eq_true.mpr ⟨x, hx, hxe⟩)
    rw [List.find?_append, hd]
    rw [List.find?_cons_of_pos _ (by simp)]
    rfl

theorem find?_dictInsert_ne {t : String} (d : List PEntry) (e : PEntry)
    (h : t ≠ e.time) :
    (dictInsert d e).find? (fun x => x.time = t) = d.find? (fun x => x.time = t) := by
  unfold dictInsert
  split
  · exact find?_update_ne d e h
  · rw [List.find?_append]
    cases hd : d.find? (fun x => x.time = t)
    · rw [List.find?_cons_of_neg _ (by simpa using Ne.symm h)]
      rfl
    · rfl

/-! ### Helper lemmas about `makepointdict` -/

theorem makepointdictLoop_times_nodup {pl : List Trkpt} :
    ∀ {d d' : List PEntry}, makepointdictLoop d pl = some d' →
      (d.map (fun x => x.time)).Nodup → (d'.map (fun x => x.time)).Nodup := by
  induction pl with
  | nil =>
    intro d d' h hd
    simp only [makepointdictLoop, Option.some.injEq] at h
    exact h ▸ hd
  | cons p rest ih =>
    intro d d' h hd
    cases hp : p.time with
    | none => simp [makepointdictLoop, hp] at h
    | some u =>
      simp only [makepointdictLoop, hp] at h
      exact ih h (nodup_times_dictInsert _ hd)

theorem makepointdictLoop_mem {pl : List Trkpt} :
    ∀ {d d' : List PEntry}, makepointdictLoop d pl = some d' →
      ∀ x ∈ d', x ∈ d ∨ ∃ p ∈ pl, p.time ≠ none ∧ x = toEntry p := by
  induction pl with
  | nil =>
    intro d d' h x hx
    simp only [makepointdictLoop, Option.some.injEq] at h
    exact Or.inl (h ▸ hx)
  | cons p rest ih =>
    intro d d' h x hx
    cases hp : p.time with
    | none => simp [makepointdictLoop, hp] at h
    | some u =>
      simp only [makepointdictLoop, hp] at h
      rcases ih h x hx with hmem | ⟨q, hq, hqt, hxq⟩
      · rcases mem_dictInsert hmem with hxe | hxd
        · exact Or.inr ⟨p, List.mem_cons_self p rest, by simp [hp], hxe⟩
        · exact Or.inl hxd
      · exact Or.inr ⟨q, List.mem_cons_of_mem p hq, hqt, hxq⟩

theorem makepointdictLoop_isSome {pl : List Trkpt} (h : ∀ p ∈ pl, p.time ≠ none) :
    ∀ d : List PEntry, ∃ d', makepointdictLoop d pl = some d' := by
  induction pl with
  | nil => intro d; exact ⟨d, rfl⟩
  | cons p rest ih =>
    intro d
    cases hp : p.time with
    | none => exact absurd hp (h p (List.mem_cons_self p rest))
    | some u =>
      obtain ⟨d', hd'⟩ := ih (fun q hq => h q (List.mem_cons_of_mem p hq)) (dictInsert d (toEntry p))
      exact ⟨d', by simp only [makepointdictLoop, hp]; exact hd'⟩

theorem makepointdictLoop_times_present {pl : List Trkpt} :
    ∀ {d d' : List PEntry}, makepointdictLoop d pl = some d' →
      ∀ p ∈ pl, p.time ≠ none := by
  induction pl with
  | nil => intro d d' _ p hp; simp at hp
  | cons p rest ih =>
    intro d d' h q hq
    cases hp : p.time with
    | none => simp [makepointdictLoop, hp] at h
    | some u =>
      simp only [makepointdictLoop, hp] at h
      rcases List.mem_cons.mp hq with rfl | hq'
      · simp [hp]
      · exact ih h q hq'

theorem makepointdictLoop_nodup_eq {pl : List Trkpt} :
    ∀ {d : List PEntry},
      (∀ p ∈ pl, p.time ≠ none) →
      (pl.map (fun p => pyStrip (p.time.getD ""))).Nodup →
      (∀ p ∈ pl, pyStrip (p.time.getD "") ∉ d.map (fun x => x.time)) →
      makepointdictLoop d pl = some (d ++ pl.map toEntry) := by
  induction pl with
  | nil => intro d _ _ _; simp [makepointdictLoop]
  | cons p rest ih =>
    intro d htime hnodup hdisj
    cases hp : p.time with
    | none => exact absurd hp (htime p (List.mem_cons_self p rest))
    | some u =>
      simp only [makepointdictLoop, hp]
      have hins : dictInsert d (toEntry p) = d ++ [toEntry p] :=
        dictInsert_of_not_mem (hdisj p (List.mem_cons_self p rest))
      rw [hins]
      rw [List.map_cons, List.nodup_cons] at hnodup
      have hdisj' : ∀ q ∈ rest,
          pyStrip (q.time.getD "") ∉ (d ++ [toEntry p]).map (fun x => x.time) := by
        intro q hq
        rw [List.map_append, List.mem_append]
        rintro (hmem | hmem)
        · exact hdisj q (List.mem_cons_of_mem p hq) hmem
        · have hqp : pyStrip (q.time.getD "") = pyStrip (p.time.getD "") := by
            simpa [toEntry] using hmem
          exact hnodup.1 (hqp ▸ List.mem_map.mpr ⟨q, hq, rfl⟩)
      have hrec := ih (fun q hq => htime q (List.mem_cons_of_mem p hq)) hnodup.2 hdisj'
      rw [hrec]
      simp [List.append_assoc, toEntry]

theorem makepointdict_nodup_eq {pl : List Trkpt}
    (htime : ∀ p ∈ pl, p.time ≠ none)
    (hnodup : (pl.map (fun p => pyStrip (p.time.getD ""))).Nodup) :
    makepointdict pl = some (pl.map toEntry) := by
  have := @makepointdictLoop_nodup_eq pl [] htime hnodup (fun p _ => by simp)
  simpa [makepointdict] using this

theorem makepointdictLoop_find? {pl : List Trkpt} :
    ∀ {d d' : List PEntry}, makepointdictLoop d pl = some d' → ∀ t : String,
      d'.find? (fun x => x.time = t) =
        (match pl.reverse.find? (fun p => p.time.map pyStrip = some t) with
          | some p => some (toEntry p)
          | none => d.find? (fun x => x.time = t)) := by
  induction pl with
  | nil =>
    intro d d' h t
    simp only [makepointdictLoop, Option.some.injEq] at h
    subst h
    simp
  | cons p rest ih =>
    intro d d' h t
    cases hp : p.time with
    | none => simp [makepointdictLoop, hp] at h
    | some u =>
      simp only [makepointdictLoop, hp] at h
      rw [ih h t, List.reverse_cons, List.find?_append]
      cases hr : rest.reverse.find? (fun p => p.time.map pyStrip = some t) with
      | some q => simp
      | none =>
        simp only [Option.none_or]
        by_cases hu : pyStrip u = t
        · have hfind : [p].find? (fun p => p.time.map pyStrip = some t) = some p := by
            rw [List.find?_cons_of_pos _ (by simp [hp, hu])]
          rw [hfind]
          have het : (toEntry p).time = t := by simp [toEntry, hp, hu]
          calc (dictInsert d (toEntry p)).find? (fun x => x.time = t)
              = (dictInsert d (toEntry p)).find? (fun x => x.time = (toEntry p).time) := by
                rw [het]
            _ = some (toEntry p) := find?_dictInsert_self d (toEntry p)

        · have hfind : [p].find? (fun p => p.time.map pyStrip = some t) = none := by
            rw [List.find?_cons_of_neg _ (by simp [hp, hu])]
            rfl
          rw [hfind]
          exact find?_dictInsert_ne d (toEntry p) (by simp [toEntry, hp]; exact Ne.symm hu)

/-! ### Helper lemmas about `emitPoints` -/

theorem length_emitPoints (d : List PEntry) : (emitPoints d).length = d.length := by
  simp [emitPoints, List.length_insertionSort]

theorem mem_emitPoints {q : OutPoint} {d : List PEntry} (h : q ∈ emitPoints d) :
    ∃ e ∈ d, q = ⟨e.lat, e.lon, e.ele, e.time⟩ := by
  simp only [emitPoints, List.mem_map, List.mem_insertionSort] at h
  obtain ⟨e, he, hq⟩ := h
  exact ⟨e, he, hq.symm⟩

theorem sorted_emitPoints (d : List PEntry) :
    ((emitPoints d).map (fun q => q.time)).Pairwise pyLe := by
  have hs := List.sorted_insertionSort entryLe d
  simp only [emitPoints, List.map_map]
  rw [List.pairwise_map]
  exact hs

theorem emitted_times_eq (d : List PEntry) :
    (emitPoints d).map (fun q => q.time) =
      (List.insertionSort entryLe d).map (fun e => e.time) := by
  simp [emitPoints, Function.comp]

theorem sorted_emitPoints_lt {d : List PEntry}
    (hnd : (d.map (fun x => x.time)).Nodup) :
    ((emitPoints d).map (fun q => q.time)).Pairwise pyLt := by
  have hle := sorted_emitPoints d
  have hperm : List.Perm ((List.insertionSort entryLe d).map (fun x => x.time))
      (d.map (fun x => x.time)) := (List.perm_insertionSort entryLe d).map _
  have hnd' : ((emitPoints d).map (fun q => q.time)).Nodup := by
    rw [emitted_times_eq]
    exact hperm.nodup_iff.mpr hnd
  exact (hle.and hnd').imp (fun h => pyLt_of_pyLe_of_ne h.1 h.2)

theorem emitPoints_sorted_eq {d : List PEntry} (hs : List.Sorted entryLe d) :
    emitPoints d = d.map (fun e => ⟨e.lat, e.lon, e.ele, e.time⟩) := by
  rw [emitPoints, hs.insertionSort_eq]

/-! ### Helper lemmas about `prepareLoop` and `prepare` -/

theorem prepareLoop_mem {l : List (Nat × Trkseg)} :
    ∀ {seen : List String} {nl : List (Nat × Trkseg)} {e d : Nat},
      prepareLoop l seen = some (nl, e, d) →
      ∀ x ∈ nl, x ∈ l ∧ x.2.pts ≠ [] ∧ segKey x.2 ∉ seen := by
  induction l with
  | nil =>
    intro seen nl e d h x hx
    simp only [prepareLoop, Option.some.injEq, Prod.mk.injEq] at h
    obtain ⟨h1, -⟩ := h
    subst h1
    simp at hx
  | cons a rest ih =>
    intro seen nl e d h x hx
    obtain ⟨i, t⟩ := a
    by_cases hemp : t.pts = []
    · simp only [prepareLoop, if_pos hemp] at h
      obtain ⟨⟨nl', e', d'⟩, hr, hb⟩ := Option.map_eq_some'.mp h
      simp only [Prod.mk.injEq] at hb
      obtain ⟨rfl, -, -⟩ := hb
      obtain ⟨hmem, hne, hseen⟩ := ih hr x hx
      exact ⟨List.mem_cons_of_mem _ hmem, hne, hseen⟩
    · simp only [prepareLoop, if_neg hemp] at h
      cases hk : findTrkptTime t with
      | none => rw [hk] at h; simp at h
      | some k =>
        rw [hk] at h
        simp only at h
        by_cases hks : k ∈ seen
        · rw [if_pos hks] at h
          obtain ⟨⟨nl', e', d'⟩, hr, hb⟩ := Option.map_eq_some'.mp h
          simp only [Prod.mk.injEq] at hb
          obtain ⟨rfl, -, -⟩ := hb
          obtain ⟨hmem, hne, hseen⟩ := ih hr x hx
          exact ⟨List.mem_cons_of_mem _ hmem, hne, hseen⟩
        · rw [if_neg hks] at h
          obtain ⟨⟨nl', e', d'⟩, hr, hb⟩ := Option.map_eq_some'.mp h
          simp only [Prod.mk.injEq] at hb
          obtain ⟨rfl, -, -⟩ := hb
          rcases List.mem_cons.mp hx with rfl | hx'
          · refine ⟨List.mem_cons_self _ _, hemp, ?_⟩
            have : segKey t = k := by rw [segKey, hk]; rfl
            rw [this]
            exact hks
          · obtain ⟨hmem, hne, hseen⟩ := ih hr x hx'
            refine ⟨List.mem_cons_of_mem _ hmem, hne, fun hc => hseen ?_⟩
            exact List.mem_append.mpr (Or.inl hc)

theorem prepareLoop_keys_nodup {l : List (Nat × Trkseg)} :
    ∀ {seen : List String} {nl : List (Nat × Trkseg)} {e d : Nat},
      prepareLoop l seen = some (nl, e, d) →
      (nl.map (fun x => segKey x.2)).Nodup := by
  induction l with
  | nil =>
    intro seen nl e d h
    simp only [prepareLoop, Option.some.injEq, Prod.mk.injEq] at h
    obtain ⟨h1, -⟩ := h
    subst h1
    simp
  | cons a rest ih =>
    intro seen nl e d h
    obtain ⟨i, t⟩ := a
    by_cases hemp : t.pts = []
    · simp only [prepareLoop, if_pos hemp] at h
      obtain ⟨⟨nl', e', d'⟩, hr, hb⟩ := Option.map_eq_some'.mp h
      simp only [Prod.mk.injEq] at hb
      obtain ⟨rfl, -, -⟩ := hb
      exact ih hr
    · simp only [prepareLoop, if_neg hemp] at h
      cases hk : findTrkptTime t with
      | none => rw [hk] at h; simp at h
      | some k =>
        rw [hk] at h
        simp only at h
        by_cases hks : k ∈ seen
        · rw [if_pos hks] at h
          obtain ⟨⟨nl', e', d'⟩, hr, hb⟩ := Option.map_eq_some'.mp h
          simp only [Prod.mk.injEq] at hb
          obtain ⟨rfl, -, -⟩ := hb
          exact ih hr
        · rw [if_neg hks] at h
          obtain ⟨⟨nl', e', d'⟩, hr, hb⟩ := Option.map_eq_some'.mp h
          simp only [Prod.mk.injEq] at hb
          obtain ⟨rfl, -, -⟩ := hb
          rw [List.map_cons, List.nodup_cons]
          constructor
          · intro hc
            obtain ⟨x, hxmem, hxk⟩ := List.mem_map.mp hc
            have hkt : segKey (i, t).2 = k := by rw [segKey, hk]; rfl
            have := (prepareLoop_mem hr x hxmem).2.2
            rw [hxk, hkt] at this
            exact this (List.mem_append.mpr (Or.inr (List.mem_singleton.mpr rfl)))
          · exact ih hr

theorem prepareLoop_first_occurrence {l : List (Nat × Trkseg)} :
    ∀ {seen : List String} {nl : List (Nat × Trkseg)} {e d : Nat},
      prepareLoop l seen = some (nl, e, d) →
      l.Pairwise (fun a b => a.1 < b.1) →
      ∀ x ∈ nl, ∀ y ∈ l, y.1 < x.1 →
        y.2.pts = [] ∨ segKey y.2 ≠ segKey x.2 := by
  induction l with
  | nil =>
    intro seen nl e d h hpw x hx y hy
    simp at hy
  | cons a rest ih =>
    intro seen nl e d h hpw x hx y hy hlt
    obtain ⟨i, t⟩ := a
    rw [List.pairwise_cons] at hpw
    by_cases hemp : t.pts = []
    · simp only [prepareLoop, if_pos hemp] at h
      obtain ⟨⟨nl', e', d'⟩, hr, hb⟩ := Option.map_eq_some'.mp h
      simp only [Prod.mk.injEq] at hb
      obtain ⟨rfl, -, -⟩ := hb
      rcases List.mem_cons.mp hy with rfl | hy'
      · exact Or.inl hemp
      · exact ih hr hpw.2 x hx y hy' hlt
    · simp only [prepareLoop, if_neg hemp] at h
      cases hk : findTrkptTime t with
      | none => rw [hk] at h; simp at h
      | some k =>
        have hkt : segKey t = k := by rw [segKey, hk]; rfl
        rw [hk] at h
        simp only at h
        by_cases hks : k ∈ seen
        · rw [if_pos hks] at h
          obtain ⟨⟨nl', e', d'⟩, hr, hb⟩ := Option.map_eq_some'.mp h
          simp only [Prod.mk.injEq] at hb
          obtain ⟨rfl, -, -⟩ := hb
          rcases List.mem_cons.mp hy with rfl | hy'
          · refine Or.inr (fun hc => ?_)
            have hxk := (prepareLoop_mem hr x hx).2.2
            have hck : segKey x.2 = k := by rw [← hc]; exact hkt
            exact hxk (hck ▸ hks)
          · exact ih hr hpw.2 x hx y hy' hlt
        · rw [if_neg hks] at h
          obtain ⟨⟨nl', e', d'⟩, hr, hb⟩ := Option.map_eq_some'.mp h
          simp only [Prod.mk.injEq] at hb
          obtain ⟨rfl, -, -⟩ := hb
          rcases List.mem_cons.mp hx with rfl | hx'
          · rcases List.mem_cons.mp hy with rfl | hy'
            · exact absurd hlt (lt_irrefl _)
            · exact absurd hlt (not_lt_of_gt (hpw.1 y hy'))
          · rcases List.mem_cons.mp hy with rfl | hy'
            · refine Or.inr (fun hc => ?_)
              have hxk := (prepareLoop_mem hr x hx').2.2
              have hck : segKey x.2 = k := by rw [← hc]; exact hkt
              exact hxk (hck ▸ List.mem_append.mpr (Or.inr (List.mem_singleton.mpr rfl)))
            · exact ih hr hpw.2 x hx' y hy' hlt

theorem prepareLoop_complete {l : List (Nat × Trkseg)} :
    ∀ {seen : List String} {nl : List (Nat × Trkseg)} {e d : Nat},
      prepareLoop l seen = some (nl, e, d) →
      l.Pairwise (fun a b => a.1 < b.1) →
      ∀ y ∈ l, y.2.pts ≠ [] → y ∉ nl →
        segKey y.2 ∈ seen ∨
          ∃ x ∈ l, x.1 < y.1 ∧ x.2.pts ≠ [] ∧ segKey x.2 = segKey y.2 := by
  induction l with
  | nil =>
    intro seen nl e d h hpw y hy
    simp at hy
  | cons a rest ih =>
    intro seen nl e d h hpw y hy hyne hynl
    obtain ⟨i, t⟩ := a
    rw [List.pairwise_cons] at hpw
    by_cases hemp : t.pts = []
    · simp only [prepareLoop, if_pos hemp] at h
      obtain ⟨⟨nl', e', d'⟩, hr, hb⟩ := Option.map_eq_some'.mp h
      simp only [Prod.mk.injEq] at hb
      obtain ⟨rfl, -, -⟩ := hb
      rcases List.mem_cons.mp hy with rfl | hy'
      · exact absurd hemp hyne
      · rcases ih hr hpw.2 y hy' hyne hynl with hl | ⟨x, hx, hxy⟩
        · exact Or.inl hl
        · exact Or.inr ⟨x, List.mem_cons_of_mem _ hx, hxy⟩
    · simp only [prepareLoop, if_neg hemp] at h
      cases hk : findTrkptTime t with
      | none => rw [hk] at h; simp at h
      | some k =>
        have hkt : segKey t = k := by rw [segKey, hk]; rfl
        rw [hk] at h
        simp only at h
        by_cases hks : k ∈ seen
        · rw [if_pos hks] at h
          obtain ⟨⟨nl', e', d'⟩, hr, hb⟩ := Option.map_eq_some'.mp h
          simp only [Prod.mk.injEq] at hb
          obtain ⟨rfl, -, -⟩ := hb
          rcases List.mem_cons.mp hy with rfl | hy'
          · exact Or.inl (by show segKey t ∈ seen; rw [hkt]; exact hks)
          · rcases ih hr hpw.2 y hy' hyne hynl with hl | ⟨x, hx, hxy⟩
            · exact Or.inl hl
            · exact Or.inr ⟨x, List.mem_cons_of_mem _ hx, hxy⟩
        · rw [if_neg hks] at h
          obtain ⟨⟨nl', e', d'⟩, hr, hb⟩ := Option.map_eq_some'.mp h
          simp only [Prod.mk.injEq] at hb
          obtain ⟨rfl, -, -⟩ := hb
          rcases List.mem_cons.mp hy with rfl | hy'
          · exact absurd (List.mem_cons_self _ _) hynl
          · have hynl' : y ∉ nl' := fun hc => hynl (List.mem_cons_of_mem _ hc)
            rcases ih hr hpw.2 y hy' hyne hynl' with hl | ⟨x, hx, hxy⟩
            · rcases List.mem_append.mp hl with hl' | hl'
              · exact Or.inl hl'
              · rw [List.mem_singleton] at hl'
                refine Or.inr ⟨(i, t), List.mem_cons_self _ _, hpw.1 y hy', hemp, ?_⟩
                rw [show (i, t).2 = t from rfl, hkt, hl']
            · exact Or.inr ⟨x, List.mem_cons_of_mem _ hx, hxy⟩

theorem enum_pairwise_fst_lt (l : List Trkseg) :
    l.enum.Pairwise (fun a b => a.1 < b.1) := by
  have hfst : l.enum.map Prod.fst = List.range' 0 l.length :=
    List.enumFrom_map_fst 0 l
  have := List.pairwise_lt_range' 0 l.length
  rw [← hfst, List.pairwise_map] at this
  exact this

/-! ### Helper lemmas about `procTrack` -/

theorem findTrkptTime_isSome {t : Trkseg} (hne : t.pts ≠ [])
    (htime : ∀ p ∈ t.pts, p.time ≠ none) : ∃ u, findTrkptTime t = some u := by
  cases hpts : t.pts with
  | nil => exact absurd hpts hne
  | cons p rest =>
    have hp := htime p (by rw [hpts]; exact List.mem_cons_self _ _)
    cases hu : p.time with
    | none => exact absurd hu hp
    | some u =>
      refine ⟨u, ?_⟩
      rw [findTrkptTime, hpts, List.filterMap_cons, hu]
      rfl

theorem procTrack_elim {crop : Bool} {t : Trkseg} {o : OutTrk} {t' : Trkseg}
    (h : procTrack crop t = some (o, t')) :
    ∃ d nm, makepointdict (if crop then t.pts.tail.dropLast else t.pts) = some d ∧
      findTrkptTime (if crop then ⟨t.pts.tail⟩ else t) = some nm ∧
      o = ⟨pyStrip nm, emitPoints d⟩ ∧
      t' = (if crop then ⟨t.pts.tail⟩ else t) := by
  simp only [procTrack] at h
  cases hd : makepointdict (if crop then t.pts.tail.dropLast else t.pts) with
  | none => rw [hd] at h; simp at h
  | some d =>
    rw [hd] at h
    simp only at h
    cases hnm : findTrkptTime (if crop then ⟨t.pts.tail⟩ else t) with
    | none => rw [hnm] at h; simp at h
    | some nm =>
      rw [hnm] at h
      simp only [Option.some.injEq, Prod.mk.injEq] at h
      exact ⟨d, nm, rfl, rfl, h.1.symm, h.2.symm⟩

theorem procTrack_intro {crop : Bool} {t : Trkseg} {d : List PEntry} {nm : String}
    (hd : makepointdict (if crop then t.pts.tail.dropLast else t.pts) = some d)
    (hnm : findTrkptTime (if crop then ⟨t.pts.tail⟩ else t) = some nm) :
    procTrack crop t =
      some (⟨pyStrip nm, emitPoints d⟩, if crop then ⟨t.pts.tail⟩ else t) := by
  simp only [procTrack]
  rw [hd]
  simp only
  rw [hnm]

theorem procTrack_isSome {crop : Bool} {t : Trkseg}
    (htime : ∀ p ∈ t.pts, p.time ≠ none)
    (hne : (if crop then t.pts.tail else t.pts) ≠ []) :
    ∃ o t', procTrack crop t = some (o, t') := by
  have hsub : List.Sublist (if crop then t.pts.tail.dropLast else t.pts) t.pts := by
    cases crop
    · simp
    · simp only [if_pos rfl]
      exact (List.dropLast_sublist _).trans (List.tail_sublist _)
  have htime' : ∀ p ∈ (if crop then t.pts.tail.dropLast else t.pts), p.time ≠ none :=
    fun p hp => htime p (hsub.subset hp)
  obtain ⟨d, hd⟩ := makepointdictLoop_isSome htime' []
  have hd' : makepointdict (if crop then t.pts.tail.dropLast else t.pts) = some d := hd
  have hpts' : (if crop then (⟨t.pts.tail⟩ : Trkseg) else t).pts =
      (if crop then t.pts.tail else t.pts) := by
    cases crop <;> simp
  have htime'' : ∀ p ∈ (if crop then (⟨t.pts.tail⟩ : Trkseg) else t).pts, p.time ≠ none := by
    rw [hpts']
    intro p hp
    refine htime p ?_
    cases crop
    · simpa using hp
    · exact (List.tail_sublist _).subset (by simpa using hp)
  obtain ⟨nm, hnm⟩ := findTrkptTime_isSome (by rw [hpts']; exact hne) htime''
  exact ⟨_, _, procTrack_intro hd' hnm⟩

theorem procTrack_snd {crop : Bool} {t : Trkseg} {o : OutTrk} {t' : Trkseg}
    (h : procTrack crop t = some (o, t')) :
    t' = t ∨ (crop = true ∧ t'.pts = t.pts.tail) := by
  obtain ⟨d, nm, -, -, -, ht'⟩ := procTrack_elim h
  cases crop
  · exact Or.inl (by simpa using ht')
  · exact Or.inr ⟨rfl, by rw [ht']; simp⟩

theorem procTrack_points {crop : Bool} {t : Trkseg} {o : OutTrk} {t' : Trkseg}
    (h : procTrack crop t = some (o, t')) :
    ∀ q ∈ o.seg, ∃ p ∈ t.pts,
      q = ⟨p.lat, p.lon, elePy p, pyStrip (p.time.getD "")⟩ := by
  obtain ⟨d, nm, hd, -, ho, -⟩ := procTrack_elim h
  intro q hq
  rw [ho] at hq
  obtain ⟨e, he, hqe⟩ := mem_emitPoints hq
  have hmem := makepointdictLoop_mem hd e he
  rcases hmem with hnil | ⟨p, hp, -, hep⟩
  · simp at hnil
  · have hsub : List.Sublist (if crop then t.pts.tail.dropLast else t.pts) t.pts := by
      cases crop
      · simp
      · simp only [if_pos rfl]
        exact (List.dropLast_sublist _).trans (List.tail_sublist _)
    refine ⟨p, hsub.subset hp, ?_⟩
    rw [hqe, hep]
    rfl

/-! ### Helper lemmas about `makeouttreeGo` -/

theorem makeouttreeGo_kept {crop : Bool} {mp : Nat} :
    ∀ {l : List (Nat × Trkseg)} {r : MOResult}, makeouttreeGo crop mp l = some r →
      r.kept = l.filter (fun x => !dropPred crop mp x.2) := by
  intro l
  induction l with
  | nil =>
    intro r h
    simp only [makeouttreeGo, Option.some.injEq] at h
    rw [← h]
    rfl
  | cons a rest ih =>
    intro r h
    obtain ⟨i, t⟩ := a
    by_cases hdrop : dropPred crop mp t = true
    · simp only [makeouttreeGo, if_pos hdrop] at h
      obtain ⟨r₀, hr₀, hb⟩ := Option.map_eq_some'.mp h
      have hk : r.kept = r₀.kept := by rw [← hb]
      have hih := ih hr₀
      rw [hk, hih, List.filter_cons,
        show ((!dropPred crop mp (i, t).2) = false) from (by simp [hdrop])]
      simp
    · simp only [makeouttreeGo, if_neg hdrop] at h
      cases hp : procTrack crop t with
      | none => rw [hp] at h; simp at h
      | some pr =>
        obtain ⟨otrk, t'⟩ := pr
        rw [hp] at h
        simp only at h
        obtain ⟨r₀, hr₀, hb⟩ := Option.map_eq_some'.mp h
        have hk : r.kept = (i, t) :: r₀.kept := by rw [← hb]
        have hih := ih hr₀
        rw [hk, hih, List.filter_cons,
          show ((!dropPred crop mp (i, t).2) = true) from (by simp [hdrop])]
        simp

theorem makeouttreeGo_trks {crop : Bool} {mp : Nat} :
    ∀ {l : List (Nat × Trkseg)} {r : MOResult}, makeouttreeGo crop mp l = some r →
      List.Forall₂ (fun otrk x => ∃ t', procTrack crop x.2 = some (otrk, t'))
        r.trks r.kept := by
  intro l
  induction l with
  | nil =>
    intro r h
    simp only [makeouttreeGo, Option.some.injEq] at h
    rw [← h]
    exact List.Forall₂.nil
  | cons a rest ih =>
    intro r h
    obtain ⟨i, t⟩ := a
    by_cases hdrop : dropPred crop mp t = true
    · simp only [makeouttreeGo, if_pos hdrop] at h
      obtain ⟨r₀, hr₀, hb⟩ := Option.map_eq_some'.mp h
      have hk : r.kept = r₀.kept := by rw [← hb]
      have ht : r.trks = r₀.trks := by rw [← hb]
      rw [hk, ht]
      exact ih hr₀
    · simp only [makeouttreeGo, if_neg hdrop] at h
      cases hp : procTrack crop t with
      | none => rw [hp] at h; simp at h
      | some pr =>
        obtain ⟨otrk, t'⟩ := pr
        rw [hp] at h
        simp only at h
        obtain ⟨r₀, hr₀, hb⟩ := Option.map_eq_some'.mp h
        have hk : r.kept = (i, t) :: r₀.kept := by rw [← hb]
        have ht : r.trks = otrk :: r₀.trks := by rw [← hb]
        rw [hk, ht]
        exact List.Forall₂.cons ⟨t', hp⟩ (ih hr₀)

theorem makeouttreeGo_segsOut {crop : Bool} {mp : Nat} :
    ∀ {l : List (Nat × Trkseg)} {r : MOResult}, makeouttreeGo crop mp l = some r →
      ∀ y ∈ r.segsOut, ∃ x ∈ l, x.1 = y.1 ∧
        (y.2 = x.2 ∨ (crop = true ∧ y.2.pts = x.2.pts.tail)) := by
  intro l
  induction l with
  | nil =>
    intro r h y hy
    simp only [makeouttreeGo, Option.some.injEq] at h
    rw [← h] at hy
    simp at hy
  | cons a rest ih =>
    intro r h y hy
    obtain ⟨i, t⟩ := a
    by_cases hdrop : dropPred crop mp t = true
    · simp only [makeouttreeGo, if_pos hdrop] at h
      obtain ⟨r₀, hr₀, hb⟩ := Option.map_eq_some'.mp h
      have hs : r.segsOut = (i, t) :: r₀.segsOut := by rw [← hb]
      rw [hs] at hy
      rcases List.mem_cons.mp hy with rfl | hy'
      · exact ⟨(i, t), List.mem_cons_self _ _, rfl, Or.inl rfl⟩
      · obtain ⟨x, hx, hxy⟩ := ih hr₀ y hy'
        exact ⟨x, List.mem_cons_of_mem _ hx, hxy⟩
    · simp only [makeouttreeGo, if_neg hdrop] at h
      cases hp : procTrack crop t with
      | none => rw [hp] at h; simp at h
      | some pr =>
        obtain ⟨otrk, t'⟩ := pr
        rw [hp] at h
        simp only at h
        obtain ⟨r₀, hr₀, hb⟩ := Option.map_eq_some'.mp h
        have hs : r.segsOut = (i, t') :: r₀.segsOut := by rw [← hb]
        rw [hs] at hy
        rcases List.mem_cons.mp hy with rfl | hy'
        · refine ⟨(i, t), List.mem_cons_self _ _, rfl, ?_⟩
          rcases procTrack_snd hp with h1 | h2
          · exact Or.inl h1
          · exact Or.inr h2
        · obtain ⟨x, hx, hxy⟩ := ih hr₀ y hy'
          exact ⟨x, List.mem_cons_of_mem _ hx, hxy⟩

theorem makeouttreeGo_segsOut_of_not_crop {mp : Nat} :
    ∀ {l : List (Nat × Trkseg)} {r : MOResult}, makeouttreeGo false mp l = some r →
      r.segsOut = l := by
  intro l
  induction l with
  | nil =>
    intro r h
    simp only [makeouttreeGo, Option.some.injEq] at h
    rw [← h]
  | cons a rest ih =>
    intro r h
    obtain ⟨i, t⟩ := a
    by_cases hdrop : dropPred false mp t = true
    · simp only [makeouttreeGo, if_pos hdrop] at h
      obtain ⟨r₀, hr₀, hb⟩ := Option.map_eq_some'.mp h
      have hs : r.segsOut = (i, t) :: r₀.segsOut := by rw [← hb]
      rw [hs, ih hr₀]
    · simp only [makeouttreeGo, if_neg hdrop] at h
      cases hp : procTrack false t with
      | none => rw [hp] at h; simp at h
      | some pr =>
        obtain ⟨otrk, t'⟩ := pr
        rw [hp] at h
        simp only at h
        obtain ⟨r₀, hr₀, hb⟩ := Option.map_eq_some'.mp h
        have ht' : t' = t := by
          rcases procTrack_snd hp with h1 | h2
          · exact h1
          · exact absurd h2.1 (by simp)
        have hs : r.segsOut = (i, t') :: r₀.segsOut := by rw [← hb]
        rw [hs, ih hr₀, ht']

theorem makeouttreeGo_isSome {crop : Bool} {mp : Nat} :
    ∀ {l : List (Nat × Trkseg)},
      (∀ x ∈ l, dropPred crop mp x.2 = true ∨
        ∃ o t', procTrack crop x.2 = some (o, t')) →
      ∃ r, makeouttreeGo crop mp l = some r := by
  intro l
  induction l with
  | nil => intro _; exact ⟨_, rfl⟩
  | cons a rest ih =>
    intro hall
    obtain ⟨i, t⟩ := a
    obtain ⟨r₀, hr₀⟩ := ih (fun x hx => hall x (List.mem_cons_of_mem _ hx))
    by_cases hdrop : dropPred crop mp t = true
    · refine ⟨⟨r₀.trks, r₀.kept, (i, t) :: r₀.segsOut, r₀.skipped + 1⟩, ?_⟩
      simp only [makeouttreeGo, if_pos hdrop]
      rw [hr₀]
      rfl
    · rcases hall (i, t) (List.mem_cons_self _ _) with h1 | ⟨o, t', hp⟩
      · exact absurd h1 hdrop
      · refine ⟨⟨o :: r₀.trks, (i, t) :: r₀.kept, (i, t') :: r₀.segsOut, r₀.skipped⟩, ?_⟩
        simp only [makeouttreeGo, if_neg hdrop]
        rw [hp]
        simp only
        rw [hr₀]
        rfl

/-! ### Helper lemmas about `applyMutations` -/

theorem applyMutations_eq_self {orig : List Trkseg} {m : List (Nat × Trkseg)}
    (h : ∀ y ∈ m, orig[y.1]? = some y.2) :
    applyMutations orig m = orig := by
  unfold applyMutations
  have hpt : ∀ x ∈ orig.enum,
      ((m.find? (fun y => y.1 == x.1)).map (fun y => y.2)).getD x.2 = x.2 := by
    intro x hx
    cases hf : m.find? (fun y => y.1 == x.1) with
    | none => rfl
    | some y =>
      have hy1 : y.1 = x.1 := by simpa using List.find?_some hf
      have h1 := h y (List.mem_of_find?_eq_some hf)
      have hx1 : orig[x.1]? = some x.2 := List.mem_enum_iff_getElem?.mp hx
      rw [hy1, hx1] at h1
      simp only [Option.some.injEq] at h1
      simp [h1]
  calc orig.enum.map _ = orig.enum.map Prod.snd := List.map_congr_left hpt
    _ = orig := List.enumFrom_map_snd 0 orig

theorem applyMutations_length (orig : List Trkseg) (m : List (Nat × Trkseg)) :
    (applyMutations orig m).length = orig.length := by
  simp [applyMutations, List.enum_eq_enumFrom]

theorem applyMutations_getElem? (orig : List Trkseg) (m : List (Nat × Trkseg)) (i : Nat) :
    (applyMutations orig m)[i]? = (orig[i]?).map
      (fun s => ((m.find? (fun y => y.1 == i)).map (fun y => y.2)).getD s) := by
  unfold applyMutations
  rw [List.getElem?_map, List.enum_eq_enumFrom, List.getElem?_enumFrom]
  cases horig : orig[i]? with
  | none => rfl
  | some s => simp only [Option.map_some', Nat.zero_add]

theorem applyMutations_forall₂ {orig : List Trkseg} {m : List (Nat × Trkseg)}
    (h : ∀ y ∈ m, ∃ t, orig[y.1]? = some t ∧ (y.2 = t ∨ y.2.pts = t.pts.tail)) :
    List.Forall₂ (fun s₀ s₁ => s₁ = s₀ ∨ s₁.pts = s₀.pts.tail) orig
      (applyMutations orig m) := by
  refine List.forall₂_of_length_eq_of_get (applyMutations_length orig m).symm ?_
  intro i h₁ h₂
  have ho : orig[i]? = some (orig.get ⟨i, h₁⟩) := by
    rw [List.getElem?_eq_getElem h₁, List.get_eq_getElem]
  have ha : (applyMutations orig m)[i]? =
      some ((applyMutations orig m).get ⟨i, h₂⟩) := by
    rw [List.getElem?_eq_getElem h₂, List.get_eq_getElem]
  have hq := applyMutations_getElem? orig m i
  rw [ho, ha] at hq
  simp only [Option.map_some', Option.some.injEq] at hq
  rw [hq]
  cases hf : m.find? (fun y => y.1 == i) with
  | none => exact Or.inl rfl
  | some y =>
    have hy1 : y.1 = i := by simpa using List.find?_some hf
    obtain ⟨t, hti, hyt⟩ := h y (List.mem_of_find?_eq_some hf)
    rw [hy1, ho] at hti
    simp only [Option.some.injEq] at hti
    rcases hyt with h1 | h2
    · exact Or.inl (by simp [h1, ← hti, List.get_eq_getElem])
    · refine Or.inr ?_
      simp only [Option.map_some', Option.getD_some]
      rw [h2, ← hti]

/-! ### Inversion of `prepare` and `runPipeline` -/

theorem prepare_elim {tl : List Trkseg} {nl : List (Nat × Trkseg)} {e d : Nat}
    (h : prepare tl = some (nl, e, d)) :
    ∃ nl₀, prepareLoop tl.enum [] = some (nl₀, e, d) ∧
      nl = List.insertionSort segLe nl₀ := by
  unfold prepare at h
  obtain ⟨⟨nl₀, e₀, d₀⟩, hr, hb⟩ := Option.map_eq_some'.mp h
  simp only [Prod.mk.injEq] at hb
  obtain ⟨h1, h2, h3⟩ := hb
  subst h2
  subst h3
  exact ⟨nl₀, hr, h1.symm⟩

theorem runPipeline_elim {ft : String} {tl : List Trkseg} {crop : Bool} {mp : Nat}
    {res : RunResult} (h : runPipeline ft tl crop mp = some res) :
    ∃ nl e d r, prepare tl = some (nl, e, d) ∧
      makeouttreeGo crop mp nl = some r ∧
      res = ⟨⟨ft, r.trks⟩, applyMutations tl r.segsOut, nl, r.kept, e, d, r.skipped⟩ := by
  unfold runPipeline at h
  cases hp : prepare tl with
  | none => rw [hp] at h; simp at h
  | some pr =>
    obtain ⟨nl, e, d⟩ := pr
    rw [hp] at h
    simp only at h
    cases hm : makeouttreeGo crop mp nl with
    | none =>
      have hmk : makeouttree ft nl crop mp = none := by
        unfold makeouttree
        rw [hm]
        rfl
      rw [hmk] at h
      simp at h
    | some r =>
      have hmk : makeouttree ft nl crop mp = some (⟨ft, r.trks⟩, r) := by
        unfold makeouttree
        rw [hm]
        rfl
      rw [hmk] at h
      simp only [Option.some.injEq] at h
      exact ⟨nl, e, d, r, rfl, hm, h.symm⟩

theorem retained_mem_enum {ft : String} {tl : List Trkseg} {crop : Bool} {mp : Nat}
    {res : RunResult} (h : runPipeline ft tl crop mp = some res) :
    ∀ x ∈ res.retained, tl[x.1]? = some x.2 ∧ x.2.pts ≠ [] := by
  obtain ⟨nl, e, d, r, hp, hm, hres⟩ := runPipeline_elim h
  obtain ⟨nl₀, hloop, hsort⟩ := prepare_elim hp
  intro x hx
  have hx' : x ∈ nl₀ := by
    have : x ∈ List.insertionSort segLe nl₀ := by
      rw [hres] at hx
      rw [← hsort]
      exact hx
    exact (List.mem_insertionSort segLe).mp (hsort ▸ this)
  obtain ⟨hmem, hne, -⟩ := prepareLoop_mem hloop x hx'
  exact ⟨List.mem_enum_iff_getElem?.mp hmem, hne⟩

theorem forall₂_exists_right {α β : Type} {R : α → β → Prop} :
    ∀ {l₁ : List α} {l₂ : List β}, List.Forall₂ R l₁ l₂ →
      ∀ a ∈ l₁, ∃ b ∈ l₂, R a b := by
  intro l₁ l₂ h
  induction h with
  | nil => intro a ha; simp at ha
  | cons hR hrest ih =>
    intro a ha
    rcases List.mem_cons.mp ha with rfl | ha'
    · exact ⟨_, List.mem_cons_self _ _, hR⟩
    · obtain ⟨b, hb, hab⟩ := ih a ha'
      exact ⟨b, List.mem_cons_of_mem _ hb, hab⟩

/-! ### Sample data used by the concrete witnesses and counterexamples -/

def ptA : Trkpt := ⟨"10", "20", some "1", some "A"⟩

def ptB : Trkpt := ⟨"11", "21", some "2", some "B"⟩

def ptC : Trkpt := ⟨"12", "22", some "3", some "C"⟩

def ptD : Trkpt := ⟨"13", "23", some "4", some "D"⟩

def ptE : Trkpt := ⟨"14", "24", some "5", some "E"⟩

def ptF : Trkpt := ⟨"15", "25", some "6", some "F"⟩

/-! ### The claims -/

/-- C1: for every segment reaching the filter in `makeouttree` with
`minpoints >= 0`: with `crop` off the segment is kept iff its point count is
strictly greater than `minpoints`, and with `crop` on it is kept iff its
original (pre-crop) point count is strictly greater than `minpoints + 2`; a
kept cropped segment is emitted with its first and last point removed (point
count `n - 2` when the timestamps are distinct). -/
theorem c1_filter_keep_iff (ft : String) (crop : Bool) (minpoints : Nat) (t : Trkseg)
    (htime : ∀ p ∈ t.pts, p.time ≠ none)
    (hnd : ((if crop then t.pts.tail.dropLast else t.pts).map
      (fun p => pyStrip (p.time.getD ""))).Nodup) :
    ∃ o r, makeouttree ft [(0, t)] crop minpoints = some (o, r) ∧
      (o.trks ≠ [] ↔
        (if crop then minpoints + 2 < t.pts.length else minpoints < t.pts.length)) ∧
      o.trks.map (fun tr => tr.seg.length) =
        (if (if crop then minpoints + 2 < t.pts.length else minpoints < t.pts.length)
          then [if crop then t.pts.length - 2 else t.pts.length] else []) := by
  by_cases hdrop : dropPred crop minpoints t = true
  · have hkeep : ¬ (if crop then minpoints + 2 < t.pts.length
        else minpoints < t.pts.length) := by
      unfold dropPred at hdrop
      cases crop <;> simp at hdrop ⊢ <;> omega
    have hgo : makeouttreeGo crop minpoints [(0, t)] =
        some ⟨[], [], [(0, t)], 1⟩ := by
      simp only [makeouttreeGo, if_pos hdrop]
      rfl
    refine ⟨⟨ft, []⟩, ⟨[], [], [(0, t)], 1⟩, ?_, ?_, ?_⟩
    · unfold makeouttree
      rw [hgo]
      rfl
    · simp [hkeep]
    · simp [hkeep]
  · have hkeep : (if crop then minpoints + 2 < t.pts.length
        else minpoints < t.pts.length) := by
      unfold dropPred at hdrop
      cases crop <;> simp at hdrop ⊢ <;> omega
    have hne' : (if crop then t.pts.tail else t.pts) ≠ [] := by
      cases crop
      · have hx : minpoints < t.pts.length := by simpa using hkeep
        have h0 : 0 < t.pts.length := by omega
        show t.pts ≠ []
        intro hc
        rw [hc] at h0
        simp at h0
      · have hx : minpoints + 2 < t.pts.length := by simpa using hkeep
        have h0 : 0 < t.pts.tail.length := by
          rw [List.length_tail]
          omega
        show t.pts.tail ≠ []
        intro hc
        rw [hc] at h0
        simp at h0
    obtain ⟨o₀, t', hpt⟩ := procTrack_isSome htime hne'
    obtain ⟨dd, nm, hdd, hnm, ho₀, ht'⟩ := procTrack_elim hpt
    have htime' : ∀ p ∈ (if crop then t.pts.tail.dropLast else t.pts),
        p.time ≠ none := by
      intro p hp
      refine htime p ?_
      cases crop
      · simpa using hp
      · exact ((List.dropLast_sublist _).trans (List.tail_sublist _)).subset
          (by simpa using hp)
    have hdictEq : makepointdict (if crop then t.pts.tail.dropLast else t.pts) =
        some ((if crop then t.pts.tail.dropLast else t.pts).map toEntry) :=
      makepointdict_nodup_eq htime' hnd
    have hddEq : dd = (if crop then t.pts.tail.dropLast else t.pts).map toEntry := by
      rw [hdd] at hdictEq
      exact Option.some.inj hdictEq
    have hgo : makeouttreeGo crop minpoints [(0, t)] =
        some ⟨[o₀], [(0, t)], [(0, t')], 0⟩ := by
      simp only [makeouttreeGo, if_neg hdrop]
      rw [hpt]
      rfl
    refine ⟨⟨ft, [o₀]⟩, ⟨[o₀], [(0, t)], [(0, t')], 0⟩, ?_, ?_, ?_⟩
    · unfold makeouttree
      rw [hgo]
      rfl
    · simp [hkeep]
    · have hlen : o₀.seg.length =
          (if crop then t.pts.tail.dropLast else t.pts).length := by
        rw [ho₀]
        simp only
        rw [length_emitPoints, hddEq, List.length_map]
      rw [if_pos hkeep]
      simp only [List.map_cons, List.map_nil, List.cons.injEq, and_true]
      rw [hlen]
      cases crop
      · rfl
      · show t.pts.tail.dropLast.length = t.pts.length - 2
        rw [List.length_dropLast, List.length_tail]
        omega

/-- C1 witness: a 6-point segment with `minpoints = 3` and `crop = true` is
kept and emitted with 4 points (the 5-point boundary case is dropped since
5 is not strictly greater than 5). -/
theorem c1_witness :
    ∃ o r, makeouttree "t" [(0, (⟨[ptA, ptB, ptC, ptD, ptE, ptF]⟩ : Trkseg))]
        true 3 = some (o, r) ∧
      (o.trks ≠ [] ↔ 3 + 2 < 6) ∧
      o.trks.map (fun tr => tr.seg.length) = [4] := by
  obtain ⟨o, r, h1, h2, h3⟩ := c1_filter_keep_iff "t" true 3
    ⟨[ptA, ptB, ptC, ptD, ptE, ptF]⟩ (by decide) (by decide)
  refine ⟨o, r, h1, by simpa using h2, by simpa using h3⟩

/-- C5 (amended): the core pipeline leaves the input document unchanged when
`crop` is off; with `crop` on it mutates the input, removing the first point of
every kept segment (`track.remove(pointlist[0])`, line 195), so each input
segment either survives unchanged or loses exactly its first point. -/
theorem c5_input_mutation (ft : String) (tl : List Trkseg) (crop : Bool)
    (mp : Nat) (res : RunResult) (h : runPipeline ft tl crop mp = some res) :
    List.Forall₂ (fun s₀ s₁ => s₁ = s₀ ∨ s₁.pts = s₀.pts.tail) tl res.finalInput ∧
    (crop = false → res.finalInput = tl) := by
  obtain ⟨nl, e, d, r, hp, hm, hres⟩ := runPipeline_elim h
  obtain ⟨nl₀, hloop, hsort⟩ := prepare_elim hp
  have hnl_enum : ∀ x ∈ nl, tl[x.1]? = some x.2 := by
    intro x hx
    have hx' : x ∈ nl₀ := by
      rw [hsort] at hx
      exact (List.mem_insertionSort segLe).mp hx
    exact List.mem_enum_iff_getElem?.mp (prepareLoop_mem hloop x hx').1
  have hfin : res.finalInput = applyMutations tl r.segsOut := by rw [hres]
  constructor
  · rw [hfin]
    refine applyMutations_forall₂ ?_
    intro y hy
    obtain ⟨x, hx, hx1, hxy⟩ := makeouttreeGo_segsOut hm y hy
    refine ⟨x.2, hx1 ▸ hnl_enum x hx, ?_⟩
    rcases hxy with h1 | h2
    · exact Or.inl h1
    · exact Or.inr h2.2
  · intro hcrop
    subst hcrop
    rw [hfin, makeouttreeGo_segsOut_of_not_crop hm]
    exact applyMutations_eq_self hnl_enum

/-- C5 counterexample: with `crop = true` the input document *is* mutated: on a
single 3-point segment with `minpoints = 0` the segment's first point has been
removed from the input once the run finishes, refuting "the core pipeline never
mutates the input document". -/
theorem c5_cex :
    (runPipeline "t" [⟨[ptA, ptB, ptC]⟩] true 0).map
      (fun r => decide (r.finalInput = [⟨[ptA, ptB, ptC]⟩])) = some false := by
  decide

/-- C5 witness: the amended statement at a concrete no-crop run. -/
theorem c5_witness :
    List.Forall₂ (fun s₀ s₁ => s₁ = s₀ ∨ s₁.pts = s₀.pts.tail)
      [⟨[ptA, ptB, ptC]⟩]
      (RunResult.finalInput ⟨⟨"t", [⟨"A", [⟨"10", "20", "1", "A"⟩,
        ⟨"11", "21", "2", "B"⟩, ⟨"12", "22", "3", "C"⟩]⟩]⟩,
        [⟨[ptA, ptB, ptC]⟩], [(0, ⟨[ptA, ptB, ptC]⟩)], [(0, ⟨[ptA, ptB, ptC]⟩)],
        0, 0, 0⟩) ∧
    (false = false →
      RunResult.finalInput ⟨⟨"t", [⟨"A", [⟨"10", "20", "1", "A"⟩,
        ⟨"11", "21", "2", "B"⟩, ⟨"12", "22", "3", "C"⟩]⟩]⟩,
        [⟨[ptA, ptB, ptC]⟩], [(0, ⟨[ptA, ptB, ptC]⟩)], [(0, ⟨[ptA, ptB, ptC]⟩)],
        0, 0, 0⟩ = [⟨[ptA, ptB, ptC]⟩]) :=
  c5_input_mutation "t" [⟨[ptA, ptB, ptC]⟩] false 0 _ (by decide)

/-- C6 (amended): a segment whose first point lacks a timestamp is *not*
treated as empty and dropped: with `crop` off and the segment surviving the
length filter (`minpoints = 0`), the run fails with an uncaught
`AttributeError` (either in `prepare`, when no point of the segment has a
timestamp, or in `makepointdict`, line 153). -/
theorem c6_missing_first_time_fatal (ft : String) (p : Trkpt) (rest : List Trkpt)
    (hp : p.time = none) :
    runPipeline ft [⟨p :: rest⟩] false 0 = none := by
  have henum : ([(⟨p :: rest⟩ : Trkseg)] : List Trkseg).enum =
      [(0, (⟨p :: rest⟩ : Trkseg))] := rfl
  cases hk : findTrkptTime ⟨p :: rest⟩ with
  | none =>
    have hloop : prepareLoop [(0, (⟨p :: rest⟩ : Trkseg))] [] = none := by
      simp only [prepareLoop]
      rw [if_neg (by simp), hk]
    have hprep : prepare [(⟨p :: rest⟩ : Trkseg)] = none := by
      unfold prepare
      rw [henum, hloop]
      rfl
    unfold runPipeline
    rw [hprep]
  | some k =>
    have hloop : prepareLoop [(0, (⟨p :: rest⟩ : Trkseg))] [] =
        some ([(0, (⟨p :: rest⟩ : Trkseg))], 0, 0) := by
      simp only [prepareLoop]
      rw [if_neg (by simp), hk]
      simp
    have hprep : prepare [(⟨p :: rest⟩ : Trkseg)] =
        some ([(0, (⟨p :: rest⟩ : Trkseg))], 0, 0) := by
      unfold prepare
      rw [henum, hloop]
      rfl
    have hdict : makepointdict (p :: rest) = none := by
      unfold makepointdict
      simp only [makepointdictLoop, hp]
    have hproc : procTrack false ⟨p :: rest⟩ = none := by
      simp only [procTrack]
      rw [show (if false then (⟨p :: rest⟩ : Trkseg).pts.tail.dropLast
        else (⟨p :: rest⟩ : Trkseg).pts) = p :: rest from rfl] at *
      rw [show makepointdict (p :: rest) = none from hdict]
    have hgo : makeouttreeGo false 0 [(0, (⟨p :: rest⟩ : Trkseg))] = none := by
      simp only [makeouttreeGo]
      rw [if_neg (by simp [dropPred]), hproc]
    unfold runPipeline
    rw [hprep]
    simp only
    have hmk : makeouttree ft [(0, (⟨p :: rest⟩ : Trkseg))] false 0 = none := by
      unfold makeouttree
      rw [hgo]
      rfl
    rw [hmk]

/-- C6 counterexample: a concrete single-segment input whose only point lacks a
timestamp makes the whole run fail (`none`), refuting "the pipeline does not
fail: the segment is treated as empty and dropped and processing completes
normally". -/
theorem c6_cex :
    runPipeline "t" [⟨[⟨"10", "20", some "1", none⟩]⟩] false 0 = none := by
  decide

/-- C6 witness: the amended statement applied at a concrete point without a
timestamp. -/
theorem c6_witness :
    runPipeline "t" [⟨[⟨"10", "20", some "1", none⟩, ptB]⟩] false 0 = none :=
  c6_missing_first_time_fatal "t" ⟨"10", "20", some "1", none⟩ [ptB] rfl

/-! ### Further shared helpers for the claims -/

theorem findTrkptTime_head {s : Trkseg} {p : Trkpt} {u : String}
    (hh : s.pts.head? = some p) (hu : p.time = some u) :
    findTrkptTime s = some u := by
  cases hpts : s.pts with
  | nil => rw [hpts] at hh; simp at hh
  | cons q rest =>
    rw [hpts] at hh
    simp only [List.head?_cons, Option.some.injEq] at hh
    subst hh
    rw [findTrkptTime, hpts, List.filterMap_cons, hu]
    rfl

theorem segKey_head {s : Trkseg} {p : Trkpt} {u : String}
    (hh : s.pts.head? = some p) (hu : p.time = some u) : segKey s = u := by
  rw [segKey, findTrkptTime_head hh hu]
  rfl

theorem dropPred_eq_false_iff {crop : Bool} {mp : Nat} {t : Trkseg} :
    dropPred crop mp t = false ↔
      (if crop then mp + 2 < t.pts.length else mp < t.pts.length) := by
  unfold dropPred
  cases crop <;> simp <;> omega

theorem kept_mem {ft : String} {tl : List Trkseg} {crop : Bool} {mp : Nat}
    {res : RunResult} (h : runPipeline ft tl crop mp = some res) :
    ∀ x ∈ res.kept, x.2 ∈ tl ∧ dropPred crop mp x.2 = false := by
  obtain ⟨nl, e, d, r, hp, hm, hres⟩ := runPipeline_elim h
  obtain ⟨nl₀, hloop, hsort⟩ := prepare_elim hp
  intro x hx
  have hx1 : x ∈ r.kept := by rw [hres] at hx; exact hx
  rw [makeouttreeGo_kept hm, List.mem_filter] at hx1
  obtain ⟨hxnl, hxdrop⟩ := hx1
  have hx' : x ∈ nl₀ := by
    rw [hsort] at hxnl
    exact (List.mem_insertionSort segLe).mp hxnl
  have hmem := (prepareLoop_mem hloop x hx').1
  refine ⟨List.getElem?_mem (List.mem_enum_iff_getElem?.mp hmem), ?_⟩
  simpa using hxdrop

/-- C7: deduplication in `prepare` keys each non-empty segment by the
timestamp of its first point as it stands at extraction time, keeps the first
occurrence in source order, drops every later segment with an exactly matching
key, and no two retained (hence no two emitted) segments share the same
pre-crop first timestamp. -/
theorem c7_dedup_first_occurrence (ft : String) (tl : List Trkseg) (crop : Bool)
    (mp : Nat) (res : RunResult) (h : runPipeline ft tl crop mp = some res)
    (hfirst : ∀ s ∈ tl, ∀ p, s.pts.head? = some p → p.time ≠ none) :
    (∀ x ∈ res.retained, tl[x.1]? = some x.2 ∧ x.2.pts ≠ [] ∧
      (∃ p, x.2.pts.head? = some p ∧ p.time = some (segKey x.2)) ∧
      (∀ j, j < x.1 → ∀ s, tl[j]? = some s → s.pts ≠ [] →
        segKey s ≠ segKey x.2)) ∧
    (∀ j s, tl[j]? = some s → s.pts ≠ [] →
      ((j, s) ∈ res.retained ∨
        ∃ i, i < j ∧ ∃ s₀, tl[i]? = some s₀ ∧ s₀.pts ≠ [] ∧
          segKey s₀ = segKey s)) ∧
    (res.retained.map (fun x => segKey x.2)).Nodup ∧
    (res.kept.map (fun x => segKey x.2)).Nodup := by
  obtain ⟨nl, e, d, r, hp, hm, hres⟩ := runPipeline_elim h
  obtain ⟨nl₀, hloop, hsort⟩ := prepare_elim hp
  have hret : res.retained = nl := by rw [hres]
  have hkept : res.kept = r.kept := by rw [hres]
  have hmem_iff : ∀ x : Nat × Trkseg, x ∈ nl ↔ x ∈ nl₀ := by
    intro x
    rw [hsort]
    exact List.mem_insertionSort segLe
  have hpw := enum_pairwise_fst_lt tl
  refine ⟨?_, ?_, ?_, ?_⟩
  · intro x hx
    have hx' : x ∈ nl₀ := (hmem_iff x).mp (hret ▸ hx)
    obtain ⟨hmem, hne, -⟩ := prepareLoop_mem hloop x hx'
    have hget := List.mem_enum_iff_getElem?.mp hmem
    refine ⟨hget, hne, ?_, ?_⟩
    · cases hpts : x.2.pts with
      | nil => exact absurd hpts hne
      | cons p rest =>
        have hh : x.2.pts.head? = some p := by rw [hpts]; rfl
        have hpt := hfirst x.2 (List.getElem?_mem hget) p hh
        cases hu : p.time with
        | none => exact absurd hu hpt
        | some u => exact ⟨p, rfl, by rw [hu, segKey_head hh hu]⟩
    · intro j hj s hsj hsne
      have hy : ((j, s) : Nat × Trkseg) ∈ tl.enum :=
        List.mem_enum_iff_getElem?.mpr hsj
      rcases prepareLoop_first_occurrence hloop hpw x hx' (j, s) hy hj with
        hempty | hneq
      · exact absurd hempty hsne
      · exact hneq
  · intro j s hsj hsne
    by_cases hmem : ((j, s) : Nat × Trkseg) ∈ nl₀
    · exact Or.inl (hret ▸ (hmem_iff (j, s)).mpr hmem)
    · have hy : ((j, s) : Nat × Trkseg) ∈ tl.enum :=
        List.mem_enum_iff_getElem?.mpr hsj
      rcases prepareLoop_complete hloop hpw (j, s) hy hsne hmem with
        hseen | ⟨x, hx, hlt, hxne, hxkey⟩
      · simp at hseen
      · exact Or.inr ⟨x.1, hlt, x.2,
          List.mem_enum_iff_getElem?.mp hx, hxne, hxkey⟩
  · have hnd₀ := prepareLoop_keys_nodup hloop
    have hperm : List.Perm (nl.map (fun x => segKey x.2))
        (nl₀.map (fun x => segKey x.2)) := by
      rw [hsort]
      exact (List.perm_insertionSort segLe nl₀).map _
    rw [hret]
    exact hperm.nodup_iff.mpr hnd₀
  · have hnd₀ := prepareLoop_keys_nodup hloop
    have hperm : List.Perm (nl.map (fun x => segKey x.2))
        (nl₀.map (fun x => segKey x.2)) := by
      rw [hsort]
      exact (List.perm_insertionSort segLe nl₀).map _
    have hndnl : (nl.map (fun x => segKey x.2)).Nodup := hperm.nodup_iff.mpr hnd₀
    have hsub : List.Sublist r.kept nl := by
      rw [makeouttreeGo_kept hm]
      exact List.filter_sublist nl
    rw [hkept]
    exact List.Nodup.sublist (hsub.map _) hndnl

/-- C8: the kept segments (those whose tracks appear in the output document,
one output track per kept segment) are in strictly ascending -- in particular
non-decreasing -- order of their pre-crop first `trkpt/time` text; since the
keys are pairwise distinct after deduplication, no ties exist and the
stable-tie clause holds vacuously. -/
theorem c8_output_order (ft : String) (tl : List Trkseg) (crop : Bool)
    (mp : Nat) (res : RunResult) (h : runPipeline ft tl crop mp = some res) :
    res.outtree.trks.length = res.kept.length ∧
    (res.kept.map (fun x => segKey x.2)).Pairwise pyLe ∧
    (res.kept.map (fun x => segKey x.2)).Nodup := by
  obtain ⟨nl, e, d, r, hp, hm, hres⟩ := runPipeline_elim h
  obtain ⟨nl₀, hloop, hsort⟩ := prepare_elim hp
  have htrks : res.outtree.trks = r.trks := by rw [hres]
  have hkept : res.kept = r.kept := by rw [hres]
  refine ⟨?_, ?_, ?_⟩
  · rw [htrks, hkept]
    exact (makeouttreeGo_trks hm).length_eq
  · have hsorted : nl.Pairwise segLe := by
      rw [hsort]
      exact List.sorted_insertionSort segLe nl₀
    have hsub : List.Sublist r.kept nl := by
      rw [makeouttreeGo_kept hm]
      exact List.filter_sublist nl
    rw [hkept, List.pairwise_map]
    exact hsorted.sublist hsub
  · have hnd₀ := prepareLoop_keys_nodup hloop
    have hperm : List.Perm (nl.map (fun x => segKey x.2))
        (nl₀.map (fun x => segKey x.2)) := by
      rw [hsort]
      exact (List.perm_insertionSort segLe nl₀).map _
    have hndnl : (nl.map (fun x => segKey x.2)).Nodup := hperm.nodup_iff.mpr hnd₀
    have hsub : List.Sublist r.kept nl := by
      rw [makeouttreeGo_kept hm]
      exact List.filter_sublist nl
    rw [hkept]
    exact List.Nodup.sublist (hsub.map _) hndnl

/-- C4 (amended): each emitted track's name is the stripped text of the first
`trkpt/time` in *source document order* of the kept segment after the crop
mutation (with `crop` the original first point has been removed from the
track, so the lookup starts at the original second point); it is *not* in
general the timestamp of the first point as emitted, because emission re-sorts
the points while the name lookup uses document order. -/
theorem c4_name_doc_order (ft : String) (tl : List Trkseg) (crop : Bool)
    (mp : Nat) (res : RunResult) (h : runPipeline ft tl crop mp = some res) :
    List.Forall₂ (fun otrk (x : Nat × Trkseg) => ∃ nm,
      findTrkptTime (if crop then ⟨x.2.pts.tail⟩ else x.2) = some nm ∧
      otrk.name = pyStrip nm) res.outtree.trks res.kept := by
  obtain ⟨nl, e, d, r, hp, hm, hres⟩ := runPipeline_elim h
  have htrks : res.outtree.trks = r.trks := by rw [hres]
  have hkept : res.kept = r.kept := by rw [hres]
  rw [htrks, hkept]
  refine (makeouttreeGo_trks hm).imp ?_
  intro otrk x hx
  obtain ⟨t', hpt⟩ := hx
  obtain ⟨dd, nm, hdd, hnm, ho, ht'⟩ := procTrack_elim hpt
  exact ⟨nm, hnm, by rw [ho]⟩

/-- C4 counterexample: a segment whose two points are stored out of order
(times "B" then "A"), run with `crop = false` and `minpoints = 0`: the points
are emitted re-sorted (first emitted timestamp "A") but the track name is "B",
the timestamp of the first point in document order -- not the timestamp of the
first point as emitted. -/
theorem c4_cex :
    (runPipeline "t" [⟨[ptB, ptA]⟩] false 0).map
      (fun r => r.outtree.trks.map
        (fun tr => (tr.name, tr.seg.map (fun q => q.time)))) =
      some [("B", ["A", "B"])] := by
  decide

/-- C3 (amended): every kept segment's pre-crop source point count strictly
exceeds `minpoints` (or `minpoints + 2` when cropping); when the stripped
point timestamps within each input segment are pairwise distinct the emitted
point count of every output track also strictly exceeds `minpoints`.  Without
that distinctness the dict-based point storage can collapse points and emit
`minpoints` or fewer. -/
theorem c3_emitted_length (ft : String) (tl : List Trkseg) (crop : Bool)
    (mp : Nat) (res : RunResult) (h : runPipeline ft tl crop mp = some res) :
    (∀ x ∈ res.kept, (if crop then mp + 2 else mp) < x.2.pts.length) ∧
    ((∀ s ∈ tl, (s.pts.map (fun p => pyStrip (p.time.getD ""))).Nodup) →
      ∀ otrk ∈ res.outtree.trks, mp < otrk.seg.length) := by
  obtain ⟨nl, e, d, r, hp, hm, hres⟩ := runPipeline_elim h
  have htrks : res.outtree.trks = r.trks := by rw [hres]
  have hkept : res.kept = r.kept := by rw [hres]
  constructor
  · intro x hx
    have := (kept_mem h x hx).2
    rw [dropPred_eq_false_iff] at this
    cases crop
    · simpa using this
    · simpa using this
  · intro hnd otrk hot
    have hot' : otrk ∈ r.trks := by rw [htrks] at hot; exact hot
    obtain ⟨x, hxk, t', hpt⟩ := forall₂_exists_right (makeouttreeGo_trks hm) otrk hot'
    have hxk' : x ∈ res.kept := by rw [hkept]; exact hxk
    obtain ⟨hxtl, hxdrop⟩ := kept_mem h x hxk'
    obtain ⟨dd, nm, hdd, hnm, ho, ht'⟩ := procTrack_elim hpt
    have hsub : List.Sublist (if crop then x.2.pts.tail.dropLast else x.2.pts)
        x.2.pts := by
      cases crop
      · simp
      · simp only [if_pos rfl]
        exact (List.dropLast_sublist _).trans (List.tail_sublist _)
    have hnd' : ((if crop then x.2.pts.tail.dropLast else x.2.pts).map
        (fun p => pyStrip (p.time.getD ""))).Nodup :=
      List.Nodup.sublist (hsub.map _) (hnd x.2 hxtl)
    have htime' : ∀ p ∈ (if crop then x.2.pts.tail.dropLast else x.2.pts),
        p.time ≠ none :=
      makepointdictLoop_times_present
        (show makepointdictLoop []
          (if crop then x.2.pts.tail.dropLast else x.2.pts) = some dd from hdd)
    have hdictEq := makepointdict_nodup_eq htime' hnd'
    have hddEq : dd =
        (if crop then x.2.pts.tail.dropLast else x.2.pts).map toEntry := by
      rw [hdd] at hdictEq
      exact Option.some.inj hdictEq
    have hlen : otrk.seg.length =
        (if crop then x.2.pts.tail.dropLast else x.2.pts).length := by
      rw [ho]
      simp only
      rw [length_emitPoints, hddEq, List.length_map]
    rw [dropPred_eq_false_iff] at hxdrop
    rw [hlen]
    cases crop
    · simpa using hxdrop
    · have hx2 : mp + 2 < x.2.pts.length := by simpa using hxdrop
      show mp < x.2.pts.tail.dropLast.length
      rw [List.length_dropLast, List.length_tail]
      omega

/-- C3 counterexample: a 2-point segment whose points share the exact
timestamp "T", run with `minpoints = 1`, `crop = false`: the segment passes
the pre-crop length filter (2 > 1) but the dict keyed by timestamp collapses
the two points, so the emitted track contains exactly 1 point, which is not
strictly greater than `minpoints = 1` -- refuting the claim for emitted point
counts. -/
theorem c3_cex :
    (runPipeline "t" [⟨[⟨"10", "20", some "1", some "T"⟩,
        ⟨"11", "21", some "2", some "T"⟩]⟩] false 1).map
      (fun r => r.outtree.trks.map (fun tr => tr.seg.length)) = some [1] := by
  decide

/-- C9 (amended): every emitted point's elevation field is exactly the code's
elevation default: the stripped `<ele>` text of some source point of some
input segment when present, and the literal "0" when absent; it is non-empty
provided no source elevation text strips to the empty string (a
whitespace-only `<ele>` text is emitted as "", so the unconditional non-empty
claim fails). -/
theorem c9_elevation_default (ft : String) (tl : List Trkseg) (crop : Bool)
    (mp : Nat) (res : RunResult) (h : runPipeline ft tl crop mp = some res) :
    (∀ otrk ∈ res.outtree.trks, ∀ q ∈ otrk.seg,
      ∃ s ∈ tl, ∃ p ∈ s.pts, q.ele = elePy p) ∧
    ((∀ s ∈ tl, ∀ p ∈ s.pts, ∀ e, p.ele = some e → pyStrip e ≠ "") →
      ∀ otrk ∈ res.outtree.trks, ∀ q ∈ otrk.seg, q.ele ≠ "") := by
  obtain ⟨nl, e, d, r, hp, hm, hres⟩ := runPipeline_elim h
  have htrks : res.outtree.trks = r.trks := by rw [hres]
  have hkept : res.kept = r.kept := by rw [hres]
  have hprov : ∀ otrk ∈ res.outtree.trks, ∀ q ∈ otrk.seg,
      ∃ s ∈ tl, ∃ p ∈ s.pts, q.ele = elePy p := by
    intro otrk hot q hq
    have hot' : otrk ∈ r.trks := by rw [htrks] at hot; exact hot
    obtain ⟨x, hxk, t', hpt⟩ :=
      forall₂_exists_right (makeouttreeGo_trks hm) otrk hot'
    have hxk' : x ∈ res.kept := by rw [hkept]; exact hxk
    obtain ⟨hxtl, -⟩ := kept_mem h x hxk'
    obtain ⟨p, hps, hq'⟩ := procTrack_points hpt q hq
    exact ⟨x.2, hxtl, p, hps, by rw [hq']⟩
  refine ⟨hprov, ?_⟩
  intro hele otrk hot q hq
  obtain ⟨s, hs, p, hps, hqe⟩ := hprov otrk hot q hq
  rw [hqe]
  unfold elePy
  cases hpe : p.ele with
  | none => simp
  | some e₀ =>
    simp only
    exact hele s hs p hps e₀ hpe

/-- C9 counterexample: a point whose `<ele>` text is the single space " "
(present but whitespace-only) is emitted with elevation "" -- an empty
elevation field, refuting "the emitted elevation field is non-empty". -/
theorem c9_cex :
    (runPipeline "t" [⟨[⟨"10", "20", some " ", some "T"⟩]⟩] false 0).map
      (fun r => r.outtree.trks.map (fun tr => tr.seg.map (fun q => q.ele))) =
      some [[""]] := by
  decide

/-- C2 (amended): for a segment's point list the emitted points are in
strictly ascending (stripped) timestamp order -- in particular each distinct
timestamp appears exactly once -- and the dict entry retained for a timestamp
is built from the *last* point (in post-crop source order) carrying that
stripped timestamp; earlier points with an exactly duplicate timestamp are
overwritten, not retained. -/
theorem c2_point_sort_dedup (pl : List Trkpt) (d : List PEntry)
    (h : makepointdict pl = some d) :
    ((emitPoints d).map (fun q => q.time)).Pairwise pyLt ∧
    (∀ t : String, d.find? (fun x => x.time = t) =
      (match pl.reverse.find? (fun p => p.time.map pyStrip = some t) with
        | some p => some (toEntry p)
        | none => none)) := by
  have hnd : (d.map (fun x => x.time)).Nodup :=
    makepointdictLoop_times_nodup h (by simp)
  refine ⟨sorted_emitPoints_lt hnd, ?_⟩
  intro t
  have hf := makepointdictLoop_find?
    (show makepointdictLoop [] pl = some d from h) t
  rw [hf]
  cases pl.reverse.find? (fun p => p.time.map pyStrip = some t) <;> simp

/-- C2 counterexample: two points share the exact timestamp "T"; only one
point is emitted, and it carries the latitude and elevation of the *second*
(later) point -- the first point is silently discarded, refuting "points
sharing a duplicate timestamp are all retained". -/
theorem c2_cex :
    (makepointdict [⟨"10", "20", some "1", some "T"⟩,
        ⟨"11", "21", some "2", some "T"⟩]).map
      (fun d => (emitPoints d).map (fun q => (q.time, q.lat, q.ele))) =
      some [("T", "11", "2")] := by
  decide

/-! ### Concrete run results used by the witnesses -/

def run2res : RunResult :=
  ⟨⟨"t", [⟨"B", [⟨"10", "20", "1", "A"⟩, ⟨"11", "21", "2", "B"⟩]⟩]⟩,
    [⟨[ptB, ptA]⟩], [(0, ⟨[ptB, ptA]⟩)], [(0, ⟨[ptB, ptA]⟩)], 0, 0, 0⟩

def tl3 : List Trkseg := [⟨[ptA, ptB]⟩, ⟨[ptC, ptD]⟩, ⟨[ptA, ptE]⟩]

def run3res : RunResult :=
  ⟨⟨"t", [⟨"A", [⟨"10", "20", "1", "A"⟩, ⟨"11", "21", "2", "B"⟩]⟩,
      ⟨"C", [⟨"12", "22", "3", "C"⟩, ⟨"13", "23", "4", "D"⟩]⟩]⟩,
    [⟨[ptA, ptB]⟩, ⟨[ptC, ptD]⟩, ⟨[ptA, ptE]⟩],
    [(0, ⟨[ptA, ptB]⟩), (1, ⟨[ptC, ptD]⟩)],
    [(0, ⟨[ptA, ptB]⟩), (1, ⟨[ptC, ptD]⟩)], 0, 1, 0⟩

def runCropRes : RunResult :=
  ⟨⟨"t", [⟨"B", [⟨"11", "21", "2", "B"⟩, ⟨"12", "22", "3", "C"⟩]⟩]⟩,
    [⟨[ptB, ptC, ptD]⟩],
    [(0, ⟨[ptA, ptB, ptC, ptD]⟩)],
    [(0, ⟨[ptA, ptB, ptC, ptD]⟩)], 0, 0, 0⟩

def tlEle : List Trkseg := [⟨[⟨"10", "20", none, some "A"⟩, ptB]⟩]

def runEleRes : RunResult :=
  ⟨⟨"t", [⟨"A", [⟨"10", "20", "0", "A"⟩, ⟨"11", "21", "2", "B"⟩]⟩]⟩,
    [⟨[⟨"10", "20", none, some "A"⟩, ptB]⟩],
    [(0, ⟨[⟨"10", "20", none, some "A"⟩, ptB]⟩)],
    [(0, ⟨[⟨"10", "20", none, some "A"⟩, ptB]⟩)], 0, 0, 0⟩

def dT : List PEntry := [⟨"T", "11", "21", "2"⟩, ⟨"B", "11", "21", "2"⟩]

/-- C7 witness: a three-segment input whose third segment duplicates the first
timestamp "A"; the duplicate is dropped, the two retained segments are keyed
by their first points' timestamps, and no two share a key. -/
theorem c7_witness :
    (∀ x ∈ run3res.retained, tl3[x.1]? = some x.2 ∧ x.2.pts ≠ [] ∧
      (∃ p, x.2.pts.head? = some p ∧ p.time = some (segKey x.2)) ∧
      (∀ j, j < x.1 → ∀ s, tl3[j]? = some s → s.pts ≠ [] →
        segKey s ≠ segKey x.2)) ∧
    (∀ j s, tl3[j]? = some s → s.pts ≠ [] →
      ((j, s) ∈ run3res.retained ∨
        ∃ i, i < j ∧ ∃ s₀, tl3[i]? = some s₀ ∧ s₀.pts ≠ [] ∧
          segKey s₀ = segKey s)) ∧
    (run3res.retained.map (fun x => segKey x.2)).Nodup ∧
    (run3res.kept.map (fun x => segKey x.2)).Nodup :=
  c7_dedup_first_occurrence "t" tl3 false 0 run3res (by decide) (by decide)

/-- C8 witness: the sorted two-track output of the three-segment sample. -/
theorem c8_witness :
    run3res.outtree.trks.length = run3res.kept.length ∧
    (run3res.kept.map (fun x => segKey x.2)).Pairwise pyLe ∧
    (run3res.kept.map (fun x => segKey x.2)).Nodup :=
  c8_output_order "t" tl3 false 0 run3res (by decide)

/-- C4 witness: the amended name rule at the out-of-order two-point sample. -/
theorem c4_witness :
    List.Forall₂ (fun otrk (x : Nat × Trkseg) => ∃ nm,
      findTrkptTime (if false then ⟨x.2.pts.tail⟩ else x.2) = some nm ∧
      otrk.name = pyStrip nm) run2res.outtree.trks run2res.kept :=
  c4_name_doc_order "t" [⟨[ptB, ptA]⟩] false 0 run2res (by decide)

/-- C3 witness: a 4-point segment with `minpoints = 1` and `crop = true` is
kept (4 > 3) and emitted with 2 points, strictly more than `minpoints`. -/
theorem c3_witness :
    (∀ x ∈ runCropRes.kept, (if true then 1 + 2 else 1) < x.2.pts.length) ∧
    ((∀ s ∈ [(⟨[ptA, ptB, ptC, ptD]⟩ : Trkseg)],
        (s.pts.map (fun p => pyStrip (p.time.getD ""))).Nodup) →
      ∀ otrk ∈ runCropRes.outtree.trks, 1 < otrk.seg.length) :=
  c3_emitted_length "t" [⟨[ptA, ptB, ptC, ptD]⟩] true 1 runCropRes (by decide)

/-- C9 witness: a point without an `<ele>` child is emitted with elevation
"0"; all emitted elevations are non-empty on this input. -/
theorem c9_witness :
    (∀ otrk ∈ runEleRes.outtree.trks, ∀ q ∈ otrk.seg,
      ∃ s ∈ tlEle, ∃ p ∈ s.pts, q.ele = elePy p) ∧
    ((∀ s ∈ tlEle, ∀ p ∈ s.pts, ∀ e, p.ele = some e → pyStrip e ≠ "") →
      ∀ otrk ∈ runEleRes.outtree.trks, ∀ q ∈ otrk.seg, q.ele ≠ "") :=
  c9_elevation_default "t" tlEle false 0 runEleRes (by decide)

/-- C2 witness: a point list with a duplicated timestamp "T"; the dict retains
the last "T" point and the emitted points are strictly sorted. -/
theorem c2_witness :
    ((emitPoints dT).map (fun q => q.time)).Pairwise pyLt ∧
    (∀ t : String, dT.find? (fun x => x.time = t) =
      (match ([⟨"10", "20", some "1", some "T"⟩,
          ⟨"11", "21", some "2", some "T"⟩, ptB] : List Trkpt).reverse.find?
          (fun p => p.time.map pyStrip = some t) with
        | some p => some (toEntry p)
        | none => none)) :=
  c2_point_sort_dedup
    [⟨"10", "20", some "1", some "T"⟩, ⟨"11", "21", some "2", some "T"⟩, ptB]
    dT (by decide)

/-! ### Canonical outputs: re-running the pipeline is the identity on them -/

theorem prepareLoop_all_retained :
    ∀ {l : List (Nat × Trkseg)} {seen : List String},
      (∀ x ∈ l, x.2.pts ≠ []) →
      ((l.map (fun x => segKey x.2)).Nodup) →
      (∀ x ∈ l, segKey x.2 ∉ seen) →
      (∀ x ∈ l, (findTrkptTime x.2).isSome) →
      prepareLoop l seen = some (l, 0, 0) := by
  intro l
  induction l with
  | nil => intro seen _ _ _ _; rfl
  | cons a rest ih =>
    intro seen hne hnd hseen hsome
    obtain ⟨i, t⟩ := a
    have hne0 : t.pts ≠ [] := hne (i, t) (List.mem_cons_self _ _)
    cases hk : findTrkptTime t with
    | none =>
      have := hsome (i, t) (List.mem_cons_self _ _)
      rw [show findTrkptTime (i, t).2 = none from hk] at this
      simp at this
    | some k =>
      have hkt : segKey t = k := by rw [segKey, hk]; rfl
      rw [List.map_cons, List.nodup_cons] at hnd
      have hseen' : ∀ x ∈ rest, segKey x.2 ∉ (seen ++ [k]) := by
        intro x hx hmem
        rcases List.mem_append.mp hmem with h1 | h1
        · exact hseen x (List.mem_cons_of_mem _ hx) h1
        · rw [List.mem_singleton] at h1
          exact hnd.1 (by rw [hkt, ← h1]; exact List.mem_map.mpr ⟨x, hx, rfl⟩)
      have hrec := ih (fun x hx => hne x (List.mem_cons_of_mem _ hx)) hnd.2 hseen'
        (fun x hx => hsome x (List.mem_cons_of_mem _ hx))
      simp only [prepareLoop, if_neg hne0]
      rw [hk]
      simp only
      rw [if_neg (by rw [← hkt]; exact hseen (i, t) (List.mem_cons_self _ _))]
      rw [hrec]
      rfl

/-- Canonicity of one output track: non-empty, point timestamps strictly
ascending, stored timestamp and elevation texts non-empty and already
whitespace-stripped, and the track name equal to the first point's
timestamp.  Re-processing a track in this form is the identity. -/
def canonicalTrk (tr : OutTrk) : Prop :=
  tr.seg ≠ [] ∧
  (tr.seg.map (fun q => q.time)).Pairwise pyLt ∧
  (∀ q ∈ tr.seg, pyStrip q.time = q.time ∧ q.time ≠ "" ∧
    pyStrip q.ele = q.ele ∧ q.ele ≠ "") ∧
  tr.name = (tr.seg.head?.map (fun q => q.time)).getD ""

instance (tr : OutTrk) : Decidable (canonicalTrk tr) := by
  unfold canonicalTrk
  infer_instance

/-- Canonicity of an output document: every track canonical and the tracks in
strictly ascending order of first-point timestamp. -/
def canonicalOut (o : OutTree) : Prop :=
  (∀ tr ∈ o.trks, canonicalTrk tr) ∧
  (o.trks.map
    (fun tr => (tr.seg.head?.map (fun q => q.time)).getD "")).Pairwise pyLt

instance (o : OutTree) : Decidable (canonicalOut o) := by
  unfold canonicalOut
  infer_instance

theorem reparsePoint_time {q : OutPoint} (h : q.time ≠ "") :
    (reparsePoint q).time = some q.time := by
  simp [reparsePoint, optText, h]

theorem reparsePoint_ele {q : OutPoint} (h : q.ele ≠ "") :
    (reparsePoint q).ele = some q.ele := by
  simp [reparsePoint, optText, h]

theorem toEntry_reparsePoint {q : OutPoint} (ht : pyStrip q.time = q.time)
    (htne : q.time ≠ "") (he : pyStrip q.ele = q.ele) (hene : q.ele ≠ "") :
    toEntry (reparsePoint q) = ⟨q.time, q.lat, q.lon, q.ele⟩ := by
  have h1 : (reparsePoint q).time = some q.time := reparsePoint_time htne
  have h2 : (reparsePoint q).ele = some q.ele := reparsePoint_ele hene
  simp [toEntry, elePy, h1, h2, ht, he]
  exact ⟨rfl, rfl⟩

theorem findTrkptTime_canonical {tr : OutTrk} (hc : canonicalTrk tr) :
    findTrkptTime (reparseSeg tr) =
      some ((tr.seg.head?.map (fun q => q.time)).getD "") := by
  obtain ⟨hne, -, hflds, -⟩ := hc
  cases hseg : tr.seg with
  | nil => exact absurd hseg hne
  | cons q₀ rest =>
    have hq₀ : q₀ ∈ tr.seg := by rw [hseg]; exact List.mem_cons_self _ _
    have hfind : findTrkptTime (reparseSeg tr) = some q₀.time := by
      refine findTrkptTime_head ?_ (reparsePoint_time (hflds q₀ hq₀).2.1)
      show (tr.seg.map reparsePoint).head? = some (reparsePoint q₀)
      rw [hseg]
      rfl
    rw [hfind]
    rfl

theorem segKey_reparseSeg {tr : OutTrk} (hc : canonicalTrk tr) :
    segKey (reparseSeg tr) = (tr.seg.head?.map (fun q => q.time)).getD "" := by
  rw [segKey, findTrkptTime_canonical hc]
  rfl

theorem dropPred_canonical {tr : OutTrk} (hne : tr.seg ≠ []) :
    dropPred false 0 (reparseSeg tr) = false := by
  have h0 : 0 < (reparseSeg tr).pts.length := by
    show 0 < (tr.seg.map reparsePoint).length
    rw [List.length_map]
    exact List.length_pos.mpr hne
  unfold dropPred
  simp only [Bool.not_false, Bool.true_and, Bool.false_and, Bool.or_false]
  rw [decide_eq_false_iff_not]
  omega

theorem procTrack_canonical {tr : OutTrk} (hc : canonicalTrk tr) :
    procTrack false (reparseSeg tr) = some (tr, reparseSeg tr) := by
  obtain ⟨hne, hsort, hflds, hname⟩ := hc
  have hpts : (reparseSeg tr).pts = tr.seg.map reparsePoint := rfl
  have htime : ∀ p ∈ (reparseSeg tr).pts, p.time ≠ none := by
    rw [hpts]
    intro p hp
    obtain ⟨q, hq, rfl⟩ := List.mem_map.mp hp
    rw [reparsePoint_time (hflds q hq).2.1]
    simp
  have hmap : (reparseSeg tr).pts.map toEntry =
      tr.seg.map (fun q => (⟨q.time, q.lat, q.lon, q.ele⟩ : PEntry)) := by
    rw [hpts, List.map_map]
    refine List.map_congr_left ?_
    intro q hq
    obtain ⟨h1, h2, h3, h4⟩ := hflds q hq
    exact toEntry_reparsePoint h1 h2 h3 h4
  have hkeys : (reparseSeg tr).pts.map (fun p => pyStrip (p.time.getD "")) =
      tr.seg.map (fun q => q.time) := by
    rw [hpts, List.map_map]
    refine List.map_congr_left ?_
    intro q hq
    obtain ⟨h1, h2, -, -⟩ := hflds q hq
    show pyStrip ((reparsePoint q).time.getD "") = q.time
    rw [reparsePoint_time h2]
    simp only [Option.getD_some]
    exact h1
  have hnd : ((reparseSeg tr).pts.map
      (fun p => pyStrip (p.time.getD ""))).Nodup := by
    rw [hkeys]
    exact hsort.imp (fun h => pyLt_ne h)
  have hdict : makepointdict (reparseSeg tr).pts =
      some ((reparseSeg tr).pts.map toEntry) :=
    makepointdict_nodup_eq htime hnd
  have hsorted_d : List.Sorted entryLe ((reparseSeg tr).pts.map toEntry) := by
    rw [hmap]
    rw [List.Sorted, List.pairwise_map]
    exact (List.pairwise_map.mp hsort).imp (fun h => pyLe_of_pyLt h)
  have hemit : emitPoints ((reparseSeg tr).pts.map toEntry) = tr.seg := by
    rw [emitPoints_sorted_eq hsorted_d, hmap, List.map_map]
    exact (List.map_congr_left (fun q _ => rfl)).trans (List.map_id tr.seg)
  cases hseg : tr.seg with
  | nil => exact absurd hseg hne
  | cons q₀ rest₀ =>
    have hq₀ : q₀ ∈ tr.seg := by rw [hseg]; exact List.mem_cons_self _ _
    have hfind : findTrkptTime (reparseSeg tr) = some q₀.time := by
      refine findTrkptTime_head ?_ (reparsePoint_time (hflds q₀ hq₀).2.1)
      show (tr.seg.map reparsePoint).head? = some (reparsePoint q₀)
      rw [hseg]
      rfl
    have hnm : pyStrip q₀.time = q₀.time := (hflds q₀ hq₀).1
    have hname' : tr.name = q₀.time := by rw [hname, hseg]; rfl
    have hpt := @procTrack_intro false (reparseSeg tr)
      ((reparseSeg tr).pts.map toEntry) q₀.time hdict hfind
    rw [hpt, hnm, hemit, ← hname']
    rfl

theorem makeouttreeGo_canonical :
    ∀ (trks : List OutTrk) (n : Nat), (∀ tr ∈ trks, canonicalTrk tr) →
      makeouttreeGo false 0 ((trks.map reparseSeg).enumFrom n) =
        some ⟨trks, (trks.map reparseSeg).enumFrom n,
          (trks.map reparseSeg).enumFrom n, 0⟩ := by
  intro trks
  induction trks with
  | nil => intro n _; rfl
  | cons tr rest ih =>
    intro n hc
    have hctr := hc tr (List.mem_cons_self _ _)
    have hdrop := dropPred_canonical hctr.1
    have hproc := procTrack_canonical hctr
    show makeouttreeGo false 0
      ((n, reparseSeg tr) :: ((rest.map reparseSeg).enumFrom (n + 1))) = _
    simp only [makeouttreeGo, if_neg (by rw [hdrop]; simp : ¬dropPred false 0 (reparseSeg tr) = true)]
    rw [hproc]
    simp only
    rw [ih (n + 1) (fun x hx => hc x (List.mem_cons_of_mem _ hx))]
    rfl

theorem prepare_canonical {o : OutTree} (hc : canonicalOut o) :
    prepare (reparse o) = some ((reparse o).enum, 0, 0) := by
  obtain ⟨hctr, hkeys⟩ := hc
  have hkeyeq : (reparse o).enum.map (fun x => segKey x.2) =
      o.trks.map (fun tr => (tr.seg.head?.map (fun q => q.time)).getD "") := by
    calc (reparse o).enum.map (fun x => segKey x.2)
        = ((reparse o).enum.map Prod.snd).map segKey := by
          rw [List.map_map]
          rfl
      _ = (reparse o).map segKey := by
          rw [List.enum_eq_enumFrom, List.enumFrom_map_snd]
      _ = o.trks.map (fun tr => segKey (reparseSeg tr)) := by
          rw [reparse, List.map_map]
          rfl
      _ = o.trks.map
          (fun tr => (tr.seg.head?.map (fun q => q.time)).getD "") := by
          refine List.map_congr_left ?_
          intro tr htr
          exact segKey_reparseSeg (hctr tr htr)
  have hnd : ((reparse o).enum.map (fun x => segKey x.2)).Nodup := by
    rw [hkeyeq]
    exact hkeys.imp (fun h => pyLt_ne h)
  have hsortkeys : ((reparse o).enum.map (fun x => segKey x.2)).Pairwise pyLe := by
    rw [hkeyeq]
    exact hkeys.imp (fun h => pyLe_of_pyLt h)
  have hsorted : List.Sorted segLe ((reparse o).enum) := by
    have h' := List.pairwise_map.mp hsortkeys
    exact h'
  have hmemtrk : ∀ x ∈ (reparse o).enum, ∃ tr ∈ o.trks, x.2 = reparseSeg tr := by
    intro x hx
    have hx2 : x.2 ∈ reparse o :=
      List.getElem?_mem (List.mem_enum_iff_getElem?.mp hx)
    obtain ⟨tr, htr, heq⟩ := List.mem_map.mp hx2
    exact ⟨tr, htr, heq.symm⟩
  have hloop : prepareLoop (reparse o).enum [] = some ((reparse o).enum, 0, 0) := by
    refine prepareLoop_all_retained ?_ hnd ?_ ?_
    · intro x hx
      obtain ⟨tr, htr, hxeq⟩ := hmemtrk x hx
      rw [hxeq]
      show (tr.seg.map reparsePoint) ≠ []
      intro hcon
      have hlen : tr.seg.length = 0 := by
        have := congrArg List.length hcon
        simpa using this
      exact (hctr tr htr).1 (List.length_eq_zero.mp hlen)
    · intro x hx h
      simp at h
    · intro x hx
      obtain ⟨tr, htr, hxeq⟩ := hmemtrk x hx
      rw [hxeq, findTrkptTime_canonical (hctr tr htr)]
      rfl
  unfold prepare
  rw [hloop]
  simp only [Option.map_some']
  rw [hsorted.insertionSort_eq]

/-- Re-running the pipeline on a canonical output document (with
`minpoints = 0` and no cropping) reproduces it except for the creation
timestamp: same tracks, no input mutation, nothing skipped or deduplicated. -/
theorem canonicalOut_run_id (ft₂ : String) (o : OutTree) (hc : canonicalOut o) :
    (runPipeline ft₂ (reparse o) false 0).map
      (fun r => (r.outtree, r.finalInput, r.numempty, r.numdupes, r.skipped)) =
      some (⟨ft₂, o.trks⟩, reparse o, 0, 0, 0) := by
  have hprep := prepare_canonical hc
  have hgo : makeouttreeGo false 0 ((reparse o).enum) =
      some ⟨o.trks, (reparse o).enum, (reparse o).enum, 0⟩ :=
    makeouttreeGo_canonical o.trks 0 hc.1
  have hmk : makeouttree ft₂ ((reparse o).enum) false 0 =
      some (⟨ft₂, o.trks⟩, ⟨o.trks, (reparse o).enum, (reparse o).enum, 0⟩) := by
    unfold makeouttree
    rw [hgo]
    rfl
  have happ : applyMutations (reparse o) ((reparse o).enum) = reparse o :=
    applyMutations_eq_self (fun y hy => List.mem_enum_iff_getElem?.mp hy)
  unfold runPipeline
  rw [hprep]
  simp only
  rw [hmk]
  simp only [Option.map_some']
  rw [happ]

/-! ### Every successful run emits stripped, strictly sorted points, and a
re-run on such an output is canonical -/

/-- The list-level body of `pyStrip`. -/
def pyStripData (l : List Char) : List Char :=
  ((l.dropWhile Char.isWhitespace).reverse.dropWhile Char.isWhitespace).reverse

theorem pyStrip_data (s : String) : (pyStrip s).data = pyStripData s.data := rfl

theorem dropWhile_dropWhile_eq {α : Type} (p : α → Bool) (l : List α) :
    (l.dropWhile p).dropWhile p = l.dropWhile p := by
  induction l with
  | nil => rfl
  | cons a l ih =>
    by_cases h : p a = true
    · rw [List.dropWhile_cons_of_pos h]
      exact ih
    · rw [List.dropWhile_cons_of_neg h, List.dropWhile_cons_of_neg h]

theorem not_head_dropWhile {α : Type} (p : α → Bool) :
    ∀ (l : List α) (x : α) (t : List α), l.dropWhile p = x :: t → ¬p x = true := by
  intro l
  induction l with
  | nil => intro x t h; simp at h
  | cons a l ih =>
    intro x t h
    by_cases ha : p a = true
    · rw [List.dropWhile_cons_of_pos ha] at h
      exact ih x t h
    · rw [List.dropWhile_cons_of_neg ha] at h
      cases h
      exact ha

theorem pyStripData_idem (l : List Char) :
    pyStripData (pyStripData l) = pyStripData l := by
  have hpre : List.IsPrefix
      (((l.dropWhile Char.isWhitespace).reverse.dropWhile Char.isWhitespace).reverse)
      (l.dropWhile Char.isWhitespace) := by
    have hsuf : List.IsSuffix
        ((l.dropWhile Char.isWhitespace).reverse.dropWhile Char.isWhitespace)
        ((l.dropWhile Char.isWhitespace).reverse) := List.dropWhile_suffix _
    obtain ⟨t₀, ht₀⟩ := hsuf
    refine ⟨t₀.reverse, ?_⟩
    have h := congrArg List.reverse ht₀
    rw [List.reverse_append, List.reverse_reverse] at h
    exact h
  have hD : (((l.dropWhile Char.isWhitespace).reverse.dropWhile
      Char.isWhitespace).reverse).dropWhile Char.isWhitespace =
      ((l.dropWhile Char.isWhitespace).reverse.dropWhile Char.isWhitespace).reverse := by
    cases hDr : ((l.dropWhile Char.isWhitespace).reverse.dropWhile
        Char.isWhitespace).reverse with
    | nil => rfl
    | cons x t =>
      obtain ⟨r, hr⟩ := hpre
      rw [hDr] at hr
      have hx : ¬Char.isWhitespace x = true := by
        refine not_head_dropWhile Char.isWhitespace l x (t ++ r) ?_
        rw [← hr]
        rfl
      rw [List.dropWhile_cons_of_neg hx]
  unfold pyStripData
  rw [hD, List.reverse_reverse,
    dropWhile_dropWhile_eq Char.isWhitespace ((l.dropWhile Char.isWhitespace).reverse)]

/-- `str.strip()` is idempotent. -/
theorem pyStrip_idem (s : String) : pyStrip (pyStrip s) = pyStrip s := by
  apply strData_inj
  rw [pyStrip_data, pyStrip_data, pyStripData_idem]

theorem pyStrip_zero : pyStrip "0" = "0" := by decide

/-- The default elevation is already stripped. -/
theorem pyStrip_elePy (p : Trkpt) : pyStrip (elePy p) = elePy p := by
  unfold elePy
  cases hpe : p.ele with
  | none => exact pyStrip_zero
  | some e => exact pyStrip_idem e

theorem length_dictInsert_ge (d : List PEntry) (e : PEntry) :
    d.length ≤ (dictInsert d e).length := by
  unfold dictInsert
  split
  · simp
  · simp

theorem makepointdictLoop_length_le {pl : List Trkpt} :
    ∀ {d d' : List PEntry}, makepointdictLoop d pl = some d' →
      d.length ≤ d'.length := by
  induction pl with
  | nil =>
    intro d d' h
    simp only [makepointdictLoop, Option.some.injEq] at h
    exact le_of_eq (congrArg List.length h)
  | cons p rest ih =>
    intro d d' h
    cases hp : p.time with
    | none => simp [makepointdictLoop, hp] at h
    | some u =>
      simp only [makepointdictLoop, hp] at h
      exact le_trans (length_dictInsert_ge d (toEntry p)) (ih h)

/-- A non-empty point list produces a non-empty dict. -/
theorem makepointdict_ne_nil {pl : List Trkpt} (hne : pl ≠ []) {d : List PEntry}
    (h : makepointdict pl = some d) : d ≠ [] := by
  cases pl with
  | nil => exact absurd rfl hne
  | cons p rest =>
    unfold makepointdict at h
    cases hp : p.time with
    | none => simp [makepointdictLoop, hp] at h
    | some u =>
      simp only [makepointdictLoop, hp] at h
      have h1 : (dictInsert [] (toEntry p)).length ≤ d.length :=
        makepointdictLoop_length_le h
      intro hd
      rw [hd] at h1
      simp [dictInsert] at h1

/-- Shape of any successful run's output: every emitted track is non-empty,
its point timestamps are strictly ascending, and every stored timestamp and
elevation text is a fixed point of stripping. -/
theorem run_output_shape (ft : String) (tl : List Trkseg) (crop : Bool)
    (mp : Nat) (res : RunResult) (h : runPipeline ft tl crop mp = some res) :
    ∀ tr ∈ res.outtree.trks, tr.seg ≠ [] ∧
      ((tr.seg.map (fun q => q.time)).Pairwise pyLt) ∧
      (∀ q ∈ tr.seg, pyStrip q.time = q.time ∧ pyStrip q.ele = q.ele) := by
  obtain ⟨nl, e, d, r, hp, hm, hres⟩ := runPipeline_elim h
  have htrks : res.outtree.trks = r.trks := by rw [hres]
  have hkept : res.kept = r.kept := by rw [hres]
  intro tr htr
  have htr' : tr ∈ r.trks := by rw [htrks] at htr; exact htr
  obtain ⟨x, hxk, t', hpt⟩ := forall₂_exists_right (makeouttreeGo_trks hm) tr htr'
  have hxk' : x ∈ res.kept := by rw [hkept]; exact hxk
  obtain ⟨-, hxdrop⟩ := kept_mem h x hxk'
  obtain ⟨dd, nm, hdd, hnm, ho, ht'⟩ := procTrack_elim hpt
  have hndd : (dd.map (fun x => x.time)).Nodup :=
    makepointdictLoop_times_nodup
      (show makepointdictLoop []
        (if crop then x.2.pts.tail.dropLast else x.2.pts) = some dd from hdd)
      (by simp)
  refine ⟨?_, ?_, ?_⟩
  · have hplne : (if crop then x.2.pts.tail.dropLast else x.2.pts) ≠ [] := by
      rw [dropPred_eq_false_iff] at hxdrop
      cases crop
      · have hx2 : mp < x.2.pts.length := by simpa using hxdrop
        show x.2.pts ≠ []
        intro hcon
        rw [hcon] at hx2
        simp at hx2
      · have hx2 : mp + 2 < x.2.pts.length := by simpa using hxdrop
        show x.2.pts.tail.dropLast ≠ []
        intro hcon
        have h0 : 0 < x.2.pts.tail.dropLast.length := by
          rw [List.length_dropLast, List.length_tail]
          omega
        rw [hcon] at h0
        simp at h0
    have hdne := makepointdict_ne_nil hplne hdd
    rw [ho]
    show emitPoints dd ≠ []
    intro hcon
    have hlen := length_emitPoints dd
    rw [hcon] at hlen
    exact hdne (List.length_eq_zero.mp hlen.symm)
  · rw [ho]
    show ((emitPoints dd).map (fun q => q.time)).Pairwise pyLt
    exact sorted_emitPoints_lt hndd
  · intro q hq
    obtain ⟨p, hps, hqe⟩ := procTrack_points hpt q hq
    constructor
    · rw [hqe]
      exact pyStrip_idem (p.time.getD "")
    · rw [hqe]
      exact pyStrip_elePy p

/-- A segment whose points all carry stripped, non-empty timestamps in
strictly ascending order and non-empty (stripped) elevations is emitted by
`procTrack` as a canonical track whose first timestamp is the segment key. -/
theorem canonicalTrk_of_shaped {s : Trkseg} {otrk : OutTrk} {t' : Trkseg}
    (hpt : procTrack false s = some (otrk, t'))
    (hne : s.pts ≠ [])
    (htm : ∀ p ∈ s.pts, ∃ u, p.time = some u ∧ pyStrip u = u ∧ u ≠ "")
    (hsort : (s.pts.map (fun p => p.time.getD "")).Pairwise pyLt)
    (hele : ∀ p ∈ s.pts, elePy p ≠ "") :
    canonicalTrk otrk ∧
    (otrk.seg.head?.map (fun q => q.time)).getD "" = segKey s := by
  obtain ⟨dd, nm, hdd, hnm, ho, ht'⟩ := procTrack_elim hpt
  have hdd' : makepointdict s.pts = some dd := hdd
  have hnm' : findTrkptTime s = some nm := hnm
  have hkeys : s.pts.map (fun p => pyStrip (p.time.getD "")) =
      s.pts.map (fun p => p.time.getD "") := by
    refine List.map_congr_left ?_
    intro p hp
    obtain ⟨u, hu, hfix, -⟩ := htm p hp
    rw [hu]
    simp only [Option.getD_some]
    exact hfix
  have hnd : (s.pts.map (fun p => pyStrip (p.time.getD ""))).Nodup := by
    rw [hkeys]
    exact hsort.imp (fun h => pyLt_ne h)
  have htime : ∀ p ∈ s.pts, p.time ≠ none := by
    intro p hp
    obtain ⟨u, hu, -⟩ := htm p hp
    rw [hu]
    simp
  have hddEq : dd = s.pts.map toEntry := by
    have h := makepointdict_nodup_eq htime hnd
    rw [hdd'] at h
    exact Option.some.inj h
  have hdtimes : dd.map (fun x => x.time) = s.pts.map (fun p => p.time.getD "") := by
    rw [hddEq, List.map_map]
    exact hkeys
  have hsorted_d : List.Sorted entryLe dd := by
    have h1 : (dd.map (fun x => x.time)).Pairwise pyLe := by
      rw [hdtimes]
      exact hsort.imp (fun h => pyLe_of_pyLt h)
    have h2 := List.pairwise_map.mp h1
    exact h2
  have hemit : otrk.seg = dd.map (fun e => (⟨e.lat, e.lon, e.ele, e.time⟩ : OutPoint)) := by
    rw [ho]
    exact emitPoints_sorted_eq hsorted_d
  cases hpts : s.pts with
  | nil => exact absurd hpts hne
  | cons p₀ rest =>
    obtain ⟨u₀, hu₀, hfix₀, hne₀⟩ := htm p₀ (by rw [hpts]; exact List.mem_cons_self _ _)
    have hfind : findTrkptTime s = some u₀ :=
      findTrkptTime_head (by rw [hpts]; rfl) hu₀
    have hnmu : nm = u₀ := by
      have h := hnm'
      rw [hfind] at h
      exact (Option.some.inj h).symm
    have hkey : segKey s = u₀ := by
      rw [segKey, hfind]
      rfl
    have hheadtime : (otrk.seg.head?.map (fun q => q.time)).getD "" = u₀ := by
      rw [hemit, hddEq, hpts]
      show pyStrip (p₀.time.getD "") = u₀
      rw [hu₀]
      simp only [Option.getD_some]
      exact hfix₀
    have hname : otrk.name = u₀ := by
      rw [ho]
      show pyStrip nm = u₀
      rw [hnmu]
      exact hfix₀
    refine ⟨⟨?_, ?_, ?_, ?_⟩, ?_⟩
    · rw [hemit, hddEq, hpts]
      simp
    · have h3 : otrk.seg.map (fun q => q.time) = dd.map (fun x => x.time) := by
        rw [hemit, List.map_map]
        rfl
      rw [h3, hdtimes]
      exact hsort
    · intro q hq
      obtain ⟨p, hps, hqe⟩ := procTrack_points hpt q hq
      obtain ⟨u, hu, hufix, hune⟩ := htm p hps
      have hqtime : q.time = u := by
        rw [hqe]
        show pyStrip (p.time.getD "") = u
        rw [hu]
        simp only [Option.getD_some]
        exact hufix
      refine ⟨?_, ?_, ?_, ?_⟩
      · rw [hqtime]
        exact hufix
      · rw [hqtime]
        exact hune
      · rw [hqe]
        exact pyStrip_elePy p
      · rw [hqe]
        show elePy p ≠ ""
        exact hele p hps
    · rw [hname]
      exact hheadtime.symm
    · exact hheadtime.trans hkey.symm

theorem forall₂_imp_mem {α β : Type} {R S : α → β → Prop} :
    ∀ {l₁ : List α} {l₂ : List β}, List.Forall₂ R l₁ l₂ →
      (∀ a ∈ l₁, ∀ b ∈ l₂, R a b → S a b) → List.Forall₂ S l₁ l₂ := by
  intro l₁ l₂ h
  induction h with
  | nil => intro _; exact List.Forall₂.nil
  | cons hR hrest ih =>
    intro H
    refine List.Forall₂.cons
      (H _ (List.mem_cons_self _ _) _ (List.mem_cons_self _ _) hR) ?_
    exact ih (fun a ha b hb hr =>
      H a (List.mem_cons_of_mem _ ha) b (List.mem_cons_of_mem _ hb) hr)

theorem forall₂_map_eq {α β γ : Type} {f : α → γ} {g : β → γ} :
    ∀ {l₁ : List α} {l₂ : List β},
      List.Forall₂ (fun a b => f a = g b) l₁ l₂ → l₁.map f = l₂.map g := by
  intro l₁ l₂ h
  induction h with
  | nil => rfl
  | cons hR hrest ih => simp only [List.map_cons, hR, ih]

/-- A successful run on the re-parse of any successful run's output (with
`minpoints = 0` and no cropping) produces a canonical output document. -/
theorem rerun_canonical (ft₁ ft₂ : String) (tl : List Trkseg) (crop : Bool)
    (mp : Nat) (res₁ res₂ : RunResult)
    (h₁ : runPipeline ft₁ tl crop mp = some res₁)
    (h₂ : runPipeline ft₂ (reparse res₁.outtree) false 0 = some res₂) :
    canonicalOut res₂.outtree := by
  have hshape := run_output_shape ft₁ tl crop mp res₁ h₁
  obtain ⟨nl, e, d, r, hp, hm, hres⟩ := runPipeline_elim h₂
  obtain ⟨nl₀, hloop, hsort⟩ := prepare_elim hp
  have htrks : res₂.outtree.trks = r.trks := by rw [hres]
  have hkept : res₂.kept = r.kept := by rw [hres]
  have hxfacts : ∀ x ∈ r.kept, ∀ otrk t', procTrack false x.2 = some (otrk, t') →
      canonicalTrk otrk ∧
      (otrk.seg.head?.map (fun q => q.time)).getD "" = segKey x.2 := by
    intro x hxk otrk t' hpt
    have hxk2 : x ∈ res₂.kept := by rw [hkept]; exact hxk
    obtain ⟨hxtl, -⟩ := kept_mem h₂ x hxk2
    have hxtl' : x.2 ∈ res₁.outtree.trks.map reparseSeg := hxtl
    obtain ⟨tr₁, htr₁, hxeq⟩ := List.mem_map.mp hxtl'
    obtain ⟨hsne, hstimes, hsflds⟩ := hshape tr₁ htr₁
    obtain ⟨dd, nm, hdd, -, -, -⟩ := procTrack_elim hpt
    have htimed : ∀ p ∈ x.2.pts, p.time ≠ none :=
      makepointdictLoop_times_present
        (show makepointdictLoop [] x.2.pts = some dd from hdd)
    have hxpts : x.2.pts = tr₁.seg.map reparsePoint := by
      have h := congrArg Trkseg.pts hxeq
      exact h.symm
    have hnex : x.2.pts ≠ [] := by
      rw [hxpts]
      intro hcon
      have hlen : tr₁.seg.length = 0 := by
        have h := congrArg List.length hcon
        simpa using h
      exact hsne (List.length_eq_zero.mp hlen)
    have htm : ∀ p ∈ x.2.pts, ∃ u, p.time = some u ∧ pyStrip u = u ∧ u ≠ "" := by
      intro p hps
      have hptime := htimed p hps
      rw [hxpts] at hps
      obtain ⟨q, hq, rfl⟩ := List.mem_map.mp hps
      have hqne : q.time ≠ "" := by
        intro hcon
        apply hptime
        show optText q.time = none
        rw [hcon]
        unfold optText
        rw [if_pos rfl]
      refine ⟨q.time, ?_, (hsflds q hq).1, hqne⟩
      show optText q.time = some q.time
      unfold optText
      rw [if_neg hqne]
    have hsortx : (x.2.pts.map (fun p => p.time.getD "")).Pairwise pyLt := by
      have hcongr : x.2.pts.map (fun p => p.time.getD "") =
          tr₁.seg.map (fun q => q.time) := by
        rw [hxpts, List.map_map]
        refine List.map_congr_left ?_
        intro q hq
        show (optText q.time).getD "" = q.time
        unfold optText
        by_cases hq0 : q.time = ""
        · rw [if_pos hq0]
          simp only [Option.getD_none]
          exact hq0.symm
        · rw [if_neg hq0]
          rfl
      rw [hcongr]
      exact hstimes
    have helex : ∀ p ∈ x.2.pts, elePy p ≠ "" := by
      intro p hps
      rw [hxpts] at hps
      obtain ⟨q, hq, rfl⟩ := List.mem_map.mp hps
      unfold elePy
      cases hqe : (reparsePoint q).ele with
      | none => decide
      | some e₀ =>
        have hqe' : optText q.ele = some e₀ := hqe
        unfold optText at hqe'
        by_cases hq0 : q.ele = ""
        · rw [if_pos hq0] at hqe'
          simp at hqe'
        · rw [if_neg hq0] at hqe'
          have he₀ : e₀ = q.ele := (Option.some.inj hqe').symm
          show pyStrip e₀ ≠ ""
          rw [he₀, (hsflds q hq).2]
          exact hq0
    exact canonicalTrk_of_shaped hpt hnex htm hsortx helex
  have hF : List.Forall₂ (fun otrk (x : Nat × Trkseg) =>
      canonicalTrk otrk ∧
      (otrk.seg.head?.map (fun q => q.time)).getD "" = segKey x.2)
      r.trks r.kept := by
    refine forall₂_imp_mem (makeouttreeGo_trks hm) ?_
    intro otrk hot x hxk hR
    obtain ⟨t', hpt⟩ := hR
    exact hxfacts x hxk otrk t' hpt
  constructor
  · intro tr htr
    have htr' : tr ∈ r.trks := by rw [htrks] at htr; exact htr
    obtain ⟨x, hxk, hR⟩ := forall₂_exists_right hF tr htr'
    exact hR.1
  · have hmapeq : r.trks.map
        (fun tr => (tr.seg.head?.map (fun q => q.time)).getD "") =
        r.kept.map (fun x => segKey x.2) :=
      forall₂_map_eq (hF.imp (fun otrk x hR => hR.2))
    have hsorted : nl.Pairwise segLe := by
      rw [hsort]
      exact List.sorted_insertionSort segLe nl₀
    have hsub : List.Sublist r.kept nl := by
      rw [makeouttreeGo_kept hm]
      exact List.filter_sublist nl
    have hple : (r.kept.map (fun x => segKey x.2)).Pairwise pyLe := by
      rw [List.pairwise_map]
      exact hsorted.sublist hsub
    have hnd₀ := prepareLoop_keys_nodup hloop
    have hperm : List.Perm (nl.map (fun x => segKey x.2))
        (nl₀.map (fun x => segKey x.2)) := by
      rw [hsort]
      exact (List.perm_insertionSort segLe nl₀).map _
    have hndk : (r.kept.map (fun x => segKey x.2)).Nodup :=
      List.Nodup.sublist (hsub.map _) (hperm.nodup_iff.mpr hnd₀)
    have hlt : (r.kept.map (fun x => segKey x.2)).Pairwise pyLt :=
      (hple.and hndk).imp (fun h => pyLt_of_pyLe_of_ne h.1 h.2)
    rw [htrks, hmapeq]
    exact hlt

/-- C10 (amended): re-running the pipeline on its own output is *not* in
general an identity up to the creation timestamp -- names and segment order
are recomputed from the re-sorted points, see the counterexample.  What does
hold: after one run, a further successful run (with `minpoints = 0`, no
cropping) produces a *canonical* output -- every track non-empty with strictly
time-sorted, stripped, non-empty point fields, its name equal to its first
point's timestamp, and the tracks strictly ordered by first timestamp -- and
every subsequent run reproduces that output except for the creation
timestamp, with the input unmutated and nothing skipped, deduplicated or
dropped as empty: the pipeline is a fixpoint from the second application
onward. -/
theorem c10_second_run_fixpoint (ft₁ ft₂ ft₃ : String) (tl : List Trkseg)
    (crop : Bool) (mp : Nat) (res₁ res₂ : RunResult)
    (h₁ : runPipeline ft₁ tl crop mp = some res₁)
    (h₂ : runPipeline ft₂ (reparse res₁.outtree) false 0 = some res₂) :
    canonicalOut res₂.outtree ∧
    (runPipeline ft₃ (reparse res₂.outtree) false 0).map
      (fun r => (r.outtree, r.finalInput, r.numempty, r.numdupes, r.skipped)) =
      some (⟨ft₃, res₂.outtree.trks⟩, reparse res₂.outtree, 0, 0, 0) := by
  have hc := rerun_canonical ft₁ ft₂ tl crop mp res₁ res₂ h₁ h₂
  exact ⟨hc, canonicalOut_run_id ft₃ res₂.outtree hc⟩

/-- C10 counterexample: a single segment with out-of-order points (times "B"
then "A"), first run with `minpoints = 0`, `crop = false`; re-running the
pipeline on the re-parsed output produces a *different* output (the track name
changes from "B" to "A"), refuting "re-running on its own output yields an
output identical except for the creation timestamp". -/
theorem c10_cex :
    ((runPipeline "t1" [⟨[ptB, ptA]⟩] false 0).bind (fun r1 =>
      (runPipeline "t2" (reparse r1.outtree) false 0).map (fun r2 =>
        decide (r2.outtree.trks = r1.outtree.trks)))) = some false := by
  decide

/-- The result of re-running the pipeline on the re-parsed output of the
`run2res` run (the C4/C10 counterexample input `[⟨[ptB, ptA]⟩]`). -/
def rerunRes : RunResult :=
  ⟨⟨"t2", [⟨"A", [⟨"10", "20", "1", "A"⟩, ⟨"11", "21", "2", "B"⟩]⟩]⟩,
    [⟨[ptA, ptB]⟩], [(0, ⟨[ptA, ptB]⟩)], [(0, ⟨[ptA, ptB]⟩)], 0, 0, 0⟩

/-- C10 witness: the second-run fixpoint statement at the concrete
counterexample input; the second run's output is canonical and a third run
reproduces it except for the creation timestamp. -/
theorem c10_witness :
    canonicalOut rerunRes.outtree ∧
    (runPipeline "t3" (reparse rerunRes.outtree) false 0).map
      (fun r => (r.outtree, r.finalInput, r.numempty, r.numdupes, r.skipped)) =
      some (⟨"t3", rerunRes.outtree.trks⟩, reparse rerunRes.outtree, 0, 0, 0) :=
  c10_second_run_fixpoint "t" "t2" "t3" [⟨[ptB, ptA]⟩] false 0 run2res rerunRes
    (by decide) (by decide)

end GPXPre
